import Mathlib

/-!
# Verification of the Instagram account analyzer core

A shallow embedding of the core logic of `instagram_analyzer.py`,
`download_profile.py` and `poster_designer.py`, together with theorems
settling the specification claims about it.

JSON documents are modelled by `JValue`: mappings are ordered association
lists (Python dicts preserve insertion order), sequences are lists and
numbers are integers (every numeric field of the Post data model is an
integer count or a Unix timestamp in seconds).
-/

inductive JValue where
  | null : JValue
  | bool (b : Bool) : JValue
  | num (n : Int) : JValue
  | str (s : String) : JValue
  | arr (elems : List JValue) : JValue
  | obj (members : List (String × JValue)) : JValue

mutual

def jeq : JValue → JValue → Bool
  | .null, .null => true
  | .bool a, .bool b => a == b
  | .num a, .num b => a == b
  | .str a, .str b => a == b
  | .arr xs, .arr ys => jeqItems xs ys
  | .obj xs, .obj ys => jeqMembers xs ys
  | _, _ => false

def jeqItems : List JValue → List JValue → Bool
  | [], [] => true
  | x :: xs, y :: ys => jeq x y && jeqItems xs ys
  | _, _ => false

def jeqMembers : List (String × JValue) → List (String × JValue) → Bool
  | [], [] => true
  | (k, v) :: xs, (l, w) :: ys => k == l && jeq v w && jeqMembers xs ys
  | _, _ => false

end

/-- Structural induction for `JValue` with membership hypotheses for the
nested lists. -/
theorem JValue.myInd (P : JValue → Prop)
    (h0 : P .null) (h1 : ∀ b, P (.bool b)) (h2 : ∀ n, P (.num n))
    (h3 : ∀ s, P (.str s))
    (h4 : ∀ xs, (∀ x ∈ xs, P x) → P (.arr xs))
    (h5 : ∀ kvs, (∀ kv ∈ kvs, P kv.2) → P (.obj kvs)) : ∀ v, P v := by
  intro v
  refine @JValue.rec P (fun xs => ∀ x ∈ xs, P x) (fun kvs => ∀ kv ∈ kvs, P kv.2)
    (fun kv => P kv.2) h0 h1 h2 h3 h4 h5 ?_ ?_ ?_ ?_ ?_ v
  · intro x hx; cases hx
  · intro x l hx hl y hy
    rcases List.mem_cons.mp hy with h | h
    · exact h ▸ hx
    · exact hl y h
  · intro kv hkv; cases hkv
  · intro kv l hkv hl y hy
    rcases List.mem_cons.mp hy with h | h
    · exact h ▸ hkv
    · exact hl y h
  · intro k w hw; exact hw

theorem jeqItems_iff
    (xs : List JValue) (ih : ∀ x ∈ xs, ∀ b, jeq x b = true ↔ x = b) :
    ∀ ys, jeqItems xs ys = true ↔ xs = ys := by
  induction xs with
  | nil => intro ys; cases ys <;> simp [jeqItems]
  | cons x xs h =>
    intro ys
    cases ys with
    | nil => simp [jeqItems]
    | cons y ys =>
      have hx := ih x (List.mem_cons_self x xs) y
      have ht := h (fun z hz b => ih z (List.mem_cons_of_mem x hz) b) ys
      simp [jeqItems, hx, ht]

theorem jeqMembers_iff
    (xs : List (String × JValue)) (ih : ∀ kv ∈ xs, ∀ b, jeq kv.2 b = true ↔ kv.2 = b) :
    ∀ ys, jeqMembers xs ys = true ↔ xs = ys := by
  induction xs with
  | nil => intro ys; cases ys <;> simp [jeqMembers]
  | cons x xs h =>
    intro ys
    cases ys with
    | nil => cases x; simp [jeqMembers]
    | cons y ys =>
      cases x with
      | mk k v =>
        cases y with
        | mk l w =>
          have hx := ih (k, v) (List.mem_cons_self _ xs) w
          have ht := h (fun z hz b => ih z (List.mem_cons_of_mem _ hz) b) ys
          simp [jeqMembers, hx, ht, Prod.ext_iff, and_assoc]

theorem jeq_iff : ∀ a b : JValue, jeq a b = true ↔ a = b := by
  intro a
  induction a using JValue.myInd with
  | h0 => intro b; cases b <;> simp [jeq]
  | h1 x => intro b; cases b <;> simp [jeq]
  | h2 x => intro b; cases b <;> simp [jeq]
  | h3 x => intro b; cases b <;> simp [jeq]
  | h4 xs ih =>
    intro b
    cases b <;> simp [jeq]
    exact jeqItems_iff xs ih _
  | h5 kvs ih =>
    intro b
    cases b <;> simp [jeq]
    exact jeqMembers_iff kvs ih _

instance : DecidableEq JValue := fun a b => decidable_of_iff (jeq a b = true) (jeq_iff a b)

/-- Python truthiness of a JSON value (`bool(x)`): `None`, `False`, `0`,
`""`, `[]` and `{}` are falsy, everything else is truthy. -/
def truthy : JValue → Bool
  | .null => false
  | .bool b => b
  | .num n => n != 0
  | .str s => s != ""
  | .arr xs => !xs.isEmpty
  | .obj kvs => !kvs.isEmpty

/-!
## Edge Locator (`InstagramAnalyzer._find_edges`)

```python
def _find_edges(self, data):
    if isinstance(data, dict):
        if 'edges' in data:
            return data['edges']
        for value in data.values():
            result = self._find_edges(value)
            if result:
                return result
    elif isinstance(data, list):
        for item in data:
            result = self._find_edges(item)
            if result:
                return result
    return []
```

The loops keep a recursive result only when it is Python-truthy, which is
the behaviour the theorems below examine.
-/

mutual

def findEdges : JValue → JValue
  | .obj kvs =>
    match List.lookup "edges" kvs with
    | some v => v
    | none => findEdgesMembers kvs
  | .arr xs => findEdgesItems xs
  | _ => .arr []

def findEdgesMembers : List (String × JValue) → JValue
  | [] => .arr []
  | (_, v) :: rest =>
    let r := findEdges v
    if truthy r then r else findEdgesMembers rest

def findEdgesItems : List JValue → JValue
  | [] => .arr []
  | v :: rest =>
    let r := findEdges v
    if truthy r then r else findEdgesItems rest

end

/-!
`edgesOccs` lists all values stored under a key literally named `"edges"`,
anywhere in the structure, in depth-first order (a mapping's own `"edges"`
binding before its values, earlier bindings and items first).
-/

mutual

def edgesOccs : JValue → List JValue
  | .obj kvs => edgesOccsMembers kvs
  | .arr xs => edgesOccsItems xs
  | _ => []

def edgesOccsMembers : List (String × JValue) → List JValue
  | [] => []
  | (k, v) :: rest =>
    (if k = "edges" then [v] else []) ++ edgesOccs v ++ edgesOccsMembers rest

def edgesOccsItems : List JValue → List JValue
  | [] => []
  | v :: rest => edgesOccs v ++ edgesOccsItems rest

end

/-- The Edge Locator that the spec sentence describes, written from the
spec's words for comparison with `findEdges`: return the first value found
under a key literally named `"edges"` in depth-first order, preferring a
mapping's own `"edges"` key over descending into its values and preferring
earlier values in iteration order; an empty sequence when there is none. -/
def specFindEdges (v : JValue) : JValue := ((edgesOccs v).head?).getD (.arr [])

/-- A mapping nested `n` levels deep with no `"edges"` key anywhere. -/
def deepNest : Nat → JValue
  | 0 => .num 0
  | n + 1 => .obj [("a", deepNest n)]

example : findEdges (.obj [("edges", .arr [.num 1])]) = .arr [.num 1] := by decide
example :
    findEdges (.obj [("a", .obj [("edges", .arr [])]),
      ("b", .obj [("edges", .arr [.num 1])])]) = .arr [.num 1] := by decide
example :
    specFindEdges (.obj [("a", .obj [("edges", .arr [])]),
      ("b", .obj [("edges", .arr [.num 1])])]) = .arr [] := by decide

theorem append_eq_singleton {α : Type} {a b : List α} {x : α} (h : a ++ b = [x]) :
    (a = [] ∧ b = [x]) ∨ (a = [x] ∧ b = []) := by
  cases a with
  | nil => exact Or.inl ⟨rfl, h⟩
  | cons y ys =>
    right
    rw [List.cons_append, List.cons.injEq] at h
    rcases h with ⟨rfl, h⟩
    rcases List.append_eq_nil.mp h with ⟨rfl, rfl⟩
    exact ⟨rfl, rfl⟩

theorem lookup_edges_none {kvs : List (String × JValue)}
    (he : edgesOccsMembers kvs = []) : List.lookup "edges" kvs = none := by
  induction kvs with
  | nil => rfl
  | cons kv rest ih =>
    cases kv with
    | mk k v =>
      rw [edgesOccsMembers] at he
      rcases List.append_eq_nil.mp he with ⟨h12, h4⟩
      rcases List.append_eq_nil.mp h12 with ⟨h1, _⟩
      have hk : k ≠ "edges" := by
        intro hkk
        rw [if_pos hkk] at h1
        exact List.cons_ne_nil _ _ h1
      have hbeq : ("edges" == k) = false := beq_eq_false_iff_ne.mpr (Ne.symm hk)
      rw [List.lookup, hbeq]
      exact ih h4

theorem lookup_edges_mem {kvs : List (String × JValue)} {w : JValue}
    (h : List.lookup "edges" kvs = some w) : w ∈ edgesOccsMembers kvs := by
  induction kvs with
  | nil => cases h
  | cons kv rest ih =>
    cases kv with
    | mk k v =>
      rw [List.lookup] at h
      rw [edgesOccsMembers]
      by_cases hk : ("edges" == k) = true
      · rw [hk] at h
        cases h
        have : k = "edges" := (eq_of_beq hk).symm
        rw [if_pos this]
        exact List.mem_append_left _ (List.mem_append_left _ (List.mem_cons_self _ _))
      · rw [eq_false_of_ne_true hk] at h
        exact List.mem_append_right ((if k = "edges" then [v] else []) ++ edgesOccs v) (ih h)

theorem findEdgesItems_of_no_edges {xs : List JValue}
    (ih : ∀ x ∈ xs, edgesOccs x = [] → findEdges x = .arr [])
    (he : edgesOccsItems xs = []) : findEdgesItems xs = .arr [] := by
  induction xs with
  | nil => rfl
  | cons v rest hrec =>
    rw [edgesOccsItems] at he
    rcases List.append_eq_nil.mp he with ⟨h1, h2⟩
    have hv : findEdges v = .arr [] := ih v (List.mem_cons_self _ _) h1
    rw [findEdgesItems, hv]
    exact hrec (fun x hx => ih x (List.mem_cons_of_mem _ hx)) h2

theorem findEdgesMembers_of_no_edges {kvs : List (String × JValue)}
    (ih : ∀ kv ∈ kvs, edgesOccs kv.2 = [] → findEdges kv.2 = .arr [])
    (he : edgesOccsMembers kvs = []) : findEdgesMembers kvs = .arr [] := by
  induction kvs with
  | nil => rfl
  | cons kv rest hrec =>
    cases kv with
    | mk k v =>
      rw [edgesOccsMembers] at he
      rcases List.append_eq_nil.mp he with ⟨h12, h4⟩
      rcases List.append_eq_nil.mp h12 with ⟨_, h3⟩
      have hv : findEdges v = .arr [] := ih (k, v) (List.mem_cons_self _ _) h3
      rw [findEdgesMembers]
      simp only [hv]
      exact hrec (fun x hx => ih x (List.mem_cons_of_mem _ hx)) h4

/-- With no `"edges"` key anywhere in the structure, the Edge Locator
returns the empty sequence. -/
theorem findEdges_of_no_edges : ∀ v : JValue, edgesOccs v = [] → findEdges v = .arr [] := by
  intro v
  induction v using JValue.myInd with
  | h0 => intro _; rfl
  | h1 b => intro _; rfl
  | h2 n => intro _; rfl
  | h3 s => intro _; rfl
  | h4 xs ih =>
    intro he
    rw [edgesOccs] at he
    rw [findEdges]
    exact findEdgesItems_of_no_edges ih he
  | h5 kvs ih =>
    intro he
    rw [edgesOccs] at he
    rw [findEdges, lookup_edges_none he]
    exact findEdgesMembers_of_no_edges ih he

theorem findEdgesItems_of_unique {xs : List JValue} {es : List JValue}
    (ih : ∀ x ∈ xs, ∀ es, edgesOccs x = [.arr es] → findEdges x = .arr es)
    (he : edgesOccsItems xs = [.arr es]) : findEdgesItems xs = .arr es := by
  induction xs with
  | nil => cases he
  | cons v rest hrec =>
    rw [edgesOccsItems] at he
    rcases append_eq_singleton he with ⟨h1, h2⟩ | ⟨h1, h2⟩
    · have hv : findEdges v = .arr [] := findEdges_of_no_edges v h1
      rw [findEdgesItems, hv]
      simp only [truthy, List.isEmpty_nil, Bool.not_true, if_false]
      exact hrec (fun x hx es h => ih x (List.mem_cons_of_mem _ hx) es h) h2
    · have hv : findEdges v = .arr es := ih v (List.mem_cons_self _ _) es h1
      rw [findEdgesItems, hv]
      by_cases hes : es.isEmpty
      · have : es = [] := List.isEmpty_iff.mp hes
        subst this
        simp only [truthy, List.isEmpty_nil, Bool.not_true, if_false]
        exact findEdgesItems_of_no_edges
          (fun x hx h => findEdges_of_no_edges x h) h2
      · simp only [truthy, hes, Bool.not_false, if_true]

theorem findEdgesMembers_of_unique {kvs : List (String × JValue)} {es : List JValue}
    (hnl : List.lookup "edges" kvs = none)
    (ih : ∀ kv ∈ kvs, ∀ es, edgesOccs kv.2 = [.arr es] → findEdges kv.2 = .arr es)
    (he : edgesOccsMembers kvs = [.arr es]) : findEdgesMembers kvs = .arr es := by
  induction kvs with
  | nil => cases he
  | cons kv rest hrec =>
    cases kv with
    | mk k v =>
      rw [List.lookup] at hnl
      have hk : ("edges" == k) = false := by
        by_cases h : ("edges" == k) = true
        · rw [h] at hnl; cases hnl
        · exact eq_false_of_ne_true h
      rw [hk] at hnl
      rw [edgesOccsMembers] at he
      have hkne : k ≠ "edges" := fun h => by
        rw [h] at hk
        simp at hk
      rw [if_neg hkne, List.nil_append] at he
      rcases append_eq_singleton he with ⟨h1, h2⟩ | ⟨h1, h2⟩
      · have hv : findEdges v = .arr [] := findEdges_of_no_edges v h1
        rw [findEdgesMembers]
        simp only [hv, truthy, List.isEmpty_nil, Bool.not_true, if_false]
        exact hrec hnl (fun x hx es h => ih x (List.mem_cons_of_mem _ hx) es h) h2
      · have hv : findEdges v = .arr es := ih (k, v) (List.mem_cons_self _ _) es h1
        rw [findEdgesMembers]
        simp only [hv]
        by_cases hes : es.isEmpty
        · have : es = [] := List.isEmpty_iff.mp hes
          subst this
          simp only [truthy, List.isEmpty_nil, Bool.not_true, if_false]
          exact findEdgesMembers_of_no_edges
            (fun x hx h => findEdges_of_no_edges x.2 h) h2
        · simp only [truthy, hes, Bool.not_false, if_true]

/-- With exactly one `"edges"` key anywhere in the structure, holding a
sequence, the Edge Locator returns that sequence. -/
theorem findEdges_of_unique_edges :
    ∀ v : JValue, ∀ es, edgesOccs v = [.arr es] → findEdges v = .arr es := by
  intro v
  induction v using JValue.myInd with
  | h0 => intro es h; cases h
  | h1 b => intro es h; cases h
  | h2 n => intro es h; cases h
  | h3 s => intro es h; cases h
  | h4 xs ih =>
    intro es he
    rw [edgesOccs] at he
    rw [findEdges]
    exact findEdgesItems_of_unique ih he
  | h5 kvs ih =>
    intro es he
    rw [edgesOccs] at he
    cases hl : List.lookup "edges" kvs with
    | some w =>
      have hw : w ∈ edgesOccsMembers kvs := lookup_edges_mem hl
      rw [he] at hw
      rcases List.mem_singleton.mp hw with rfl
      rw [findEdges, hl]
    | none =>
      rw [findEdges, hl]
      exact findEdgesMembers_of_unique hl ih he

/-- Claim C1 (corrected), counterexample: on a structure whose first
`"edges"` key (in depth-first order) holds the empty sequence and whose
second holds `[1]`, `_find_edges` returns `[1]`, not the first sequence
`[]` that the spec's depth-first contract designates: the loops skip a
recursive result that is Python-falsy. -/
theorem C1_first_sequence_counterexample :
    findEdges (.obj [("a", .obj [("edges", .arr [])]),
      ("b", .obj [("edges", .arr [.num 1])])]) = .arr [.num 1]
    ∧ specFindEdges (.obj [("a", .obj [("edges", .arr [])]),
      ("b", .obj [("edges", .arr [.num 1])])]) = .arr []
    ∧ JValue.arr [.num 1] ≠ JValue.arr [] :=
  ⟨by decide, by decide, by decide⟩

/-- Claim C1 (amended): `_find_edges` returns the first Python-truthy
recursive result rather than the first `"edges"` value in depth-first
order; the claim's two particular consequences do hold: a structure with
no `"edges"` key yields the empty sequence (not an error), and a structure
containing exactly one `"edges"` key, holding a sequence, yields exactly
that sequence, whatever unrelated sibling keys are present. -/
theorem C1_edge_locator_amended :
    (∀ v : JValue, edgesOccs v = [] → findEdges v = .arr []) ∧
    (∀ (v : JValue) (es : List JValue), edgesOccs v = [.arr es] → findEdges v = .arr es) :=
  ⟨findEdges_of_no_edges, findEdges_of_unique_edges⟩

/-- Witness for `C1_edge_locator_amended` at concrete inputs. -/
theorem C1_edge_locator_amended_witness :
    findEdges (.obj [("x", .obj [("edges", .arr [.num 7])]), ("k", .num 3)]) = .arr [.num 7] ∧
    findEdges (.obj [("k", .num 3)]) = .arr [] :=
  ⟨C1_edge_locator_amended.2 _ [.num 7] (by decide),
   C1_edge_locator_amended.1 _ (by decide)⟩

/-- Claim C2 (code bug): the embedded `_find_edges` carries no depth
counter and no "structure too deep" outcome of any kind — at every nesting
depth `n`, including past the claimed ceiling of about 1000, the search of
an edge-free chain of mappings returns the ordinary empty-sequence result.
The Python original therefore has nothing to raise but the interpreter's
generic `RecursionError` once the structure outgrows the runtime stack. -/
theorem C2_no_depth_ceiling :
    (∀ n, findEdges (deepNest n) = .arr []) ∧ findEdges (deepNest 1001) = .arr [] := by
  have h : ∀ n, findEdges (deepNest n) = .arr [] := by
    intro n
    induction n with
    | zero => rfl
    | succ m ih =>
      have hl : List.lookup "edges" [("a", deepNest m)] = none := rfl
      rw [deepNest, findEdges, hl, findEdgesMembers, ih]
      rfl
  exact ⟨h, h 1001⟩

/-!
## Record Normalizer, captured-API-response dialect
(`InstagramAnalyzer.extract_from_response`)

```python
edges = self._find_edges(data)
for edge in edges:
    node = edge.get('node', {})
    post = {
        'id': node.get('id'),
        'shortcode': node.get('shortcode'),
        'display_url': node.get('display_url'),
        'timestamp': node.get('taken_at_timestamp'),
        'likes': node.get('edge_liked_by', {}).get('count', 0),
        'comments': node.get('edge_media_to_comment', {}).get('count', 0),
        'caption': self._extract_caption(node),
        'is_video': node.get('is_video', False),
        'dimensions': node.get('dimensions', {}),
    }
    if post['display_url'] and not post['is_video']:
        self.posts_data.append(post)
```

Failures (`dict.get` on a non-dict, subscripting a non-sequence) are
modelled by `Option`: `none` is a raised exception.
-/

/-- `d.get(k, dflt)`: `none` models the `AttributeError` raised when `d`
is not a mapping. -/
def pyGet (d : JValue) (k : String) (dflt : JValue) : Option JValue :=
  match d with
  | .obj kvs => some ((List.lookup k kvs).getD dflt)
  | _ => none

/-- `InstagramAnalyzer._extract_caption`:
`edges = node.get('edge_media_to_caption', {}).get('edges', [])`,
then `edges[0].get('node', {}).get('text', '')` when `edges` is truthy,
else the empty string. -/
def extractCaption (node : JValue) : Option JValue := do
  let wrapper ← pyGet node "edge_media_to_caption" (.obj [])
  let edges ← pyGet wrapper "edges" (.arr [])
  if truthy edges then
    match edges with
    | .arr (e :: _) => do
      let n ← pyGet e "node" (.obj [])
      pyGet n "text" (.str "")
    | _ => none
  else
    pure (.str "")

/-- The `post` dict literal of `extract_from_response`, as an ordered
mapping. -/
def buildPost (node : JValue) : Option JValue := do
  let idv ← pyGet node "id" .null
  let sc ← pyGet node "shortcode" .null
  let du ← pyGet node "display_url" .null
  let ts ← pyGet node "taken_at_timestamp" .null
  let likesWrap ← pyGet node "edge_liked_by" (.obj [])
  let likes ← pyGet likesWrap "count" (.num 0)
  let commentsWrap ← pyGet node "edge_media_to_comment" (.obj [])
  let comments ← pyGet commentsWrap "count" (.num 0)
  let caption ← extractCaption node
  let iv ← pyGet node "is_video" (.bool false)
  let dims ← pyGet node "dimensions" (.obj [])
  pure (.obj [("id", idv), ("shortcode", sc), ("display_url", du),
    ("timestamp", ts), ("likes", likes), ("comments", comments),
    ("caption", caption), ("is_video", iv), ("dimensions", dims)])

/-- One loop iteration's record: `node = edge.get('node', {})` then the
`post` dict. -/
def processEdge (edge : JValue) : Option JValue := do
  let node ← pyGet edge "node" (.obj [])
  buildPost node

/-- Subscript `post[k]` on a record built by `buildPost` (all keys are
present by construction). -/
def jfield (post : JValue) (k : String) : JValue :=
  match post with
  | .obj kvs => (List.lookup k kvs).getD .null
  | _ => .null

/-- The admission test of line 55: `post['display_url'] and not
post['is_video']`. -/
def keepPost (post : JValue) : Bool :=
  truthy (jfield post "display_url") && !truthy (jfield post "is_video")

/-- The `for edge in edges` loop, appending each admitted record to
`self.posts_data`. -/
def extractLoop (acc : List JValue) : List JValue → Option (List JValue)
  | [] => some acc
  | e :: es => do
    let post ← processEdge e
    extractLoop (if keepPost post then acc ++ [post] else acc) es

/-- Python iteration over whatever `_find_edges` returned: a list yields
its items, a string its characters, a dict its keys; scalars raise
`TypeError` (`none`). -/
def pyIter : JValue → Option (List JValue)
  | .arr xs => some xs
  | .str s => some (s.toList.map (fun c => .str c.toString))
  | .obj kvs => some (kvs.map (fun kv => .str kv.1))
  | _ => none

/-- `extract_from_response` on an already-parsed document: locate the edge
collection, then run the normalizing loop against the current
`posts_data`. -/
def extractFromResponse (postsData : List JValue) (doc : JValue) : Option (List JValue) := do
  let es ← pyIter (findEdges doc)
  extractLoop postsData es

/-!
## Record Normalizer, live-profile dialect (`download_profile`)

```python
for post in profile.get_posts():
    if max_posts and count >= max_posts:
        break
    if post.is_video:
        continue
    try:
        L.download_post(post, target=output_path)
    except Exception as e:
        continue
    post_data = { ...flat fields..., "hashtags": list(post.caption_hashtags) ... }
    posts_data.append(post_data)
    count += 1
```
-/

/-- A raw node of the live profile source (an `instaloader.Post`), with the
fields the loop reads. `caption_hashtags`/`caption_mentions` are computed
by the external library from the caption; this repository only copies
them. -/
structure LivePost where
  mediaid : Int
  shortcode : String
  url : String
  date_utc : Nat
  likes : Int
  comments : Int
  caption : Option String
  is_video : Bool
  video_url : Option String
  width : Int
  height : Int
  caption_hashtags : List String
  caption_mentions : List String

/-- The `post_data` dict literal of `download_profile` (the
`post.video_url and 0 or getattr(post, 'width', 0)` expressions evaluate
to the width/height whether or not a video URL is present, since
`x and 0 or w` yields `w` for truthy and falsy `x` alike). -/
def buildLiveRecord (p : LivePost) : JValue :=
  .obj [("id", .str (toString p.mediaid)), ("shortcode", .str p.shortcode),
    ("display_url", .str p.url), ("timestamp", .num p.date_utc),
    ("likes", .num p.likes), ("comments", .num p.comments),
    ("caption", .str (p.caption.getD "")),
    ("is_video", .bool p.is_video),
    ("dimensions", .obj [("width", .num p.width), ("height", .num p.height)]),
    ("hashtags", .arr ((if p.caption_hashtags.isEmpty then [] else p.caption_hashtags).map .str)),
    ("mentions", .arr ((if p.caption_mentions.isEmpty then [] else p.caption_mentions).map .str))]

/-- `if max_posts and count >= max_posts: break` — `max_posts` is falsy
when absent or zero. -/
def capReached (maxPosts : Option Nat) (count : Nat) : Bool :=
  match maxPosts with
  | some m => m != 0 && decide (m ≤ count)
  | none => false

/-- The `download_profile` collection loop; `fetchOk` is the opaque blob
fetcher (`L.download_post` succeeding or raising). -/
def downloadLoop (fetchOk : LivePost → Bool) (maxPosts : Option Nat) :
    List LivePost → Nat → List JValue
  | [], _ => []
  | p :: ps, count =>
    if capReached maxPosts count then []
    else if p.is_video then downloadLoop fetchOk maxPosts ps count
    else if fetchOk p then buildLiveRecord p :: downloadLoop fetchOk maxPosts ps (count + 1)
    else downloadLoop fetchOk maxPosts ps count

/-- The key list of a record. -/
def postKeys (post : JValue) : List String :=
  match post with
  | .obj kvs => kvs.map Prod.fst
  | _ => []

/-- Building every record of an edge list (the error of the first bad edge
propagates, as the Python loop raises). -/
def processAll : List JValue → Option (List JValue)
  | [] => some []
  | e :: es => do
    let p ← processEdge e
    let ps ← processAll es
    pure (p :: ps)

theorem optBind_some {α β : Type} (a : α) (f : α → Option β) :
    (do let x ← some a; f x) = f a := rfl

theorem extractLoop_processAll (es : List JValue) :
    ∀ acc, extractLoop acc es = (processAll es).map (fun ps => acc ++ ps.filter keepPost) := by
  induction es with
  | nil => intro acc; simp [extractLoop, processAll]
  | cons e es ih =>
    intro acc
    cases hpe : processEdge e with
    | none => simp [extractLoop, processAll, hpe]
    | some post =>
      rw [extractLoop, processAll]
      simp only [hpe, optBind_some]
      rw [ih]
      cases hpa : processAll es with
      | none => simp
      | some ps =>
        by_cases hk : keepPost post
        · simp [hpa, hk, List.filter_cons, List.append_assoc]
        · simp [hpa, hk, List.filter_cons]

theorem downloadLoop_all_fetched (fetchOk : LivePost → Bool)
    (h : ∀ p, fetchOk p = true) :
    ∀ (ps : List LivePost) (count : Nat),
      downloadLoop fetchOk none ps count =
        (ps.filter (fun p => !p.is_video)).map buildLiveRecord := by
  intro ps
  induction ps with
  | nil => intro count; rfl
  | cons p ps ih =>
    intro count
    rw [downloadLoop]
    by_cases hv : p.is_video
    · simp [capReached, hv, List.filter_cons, ih]
    · simp [capReached, hv, h p, List.filter_cons, ih]

/-- Claim C7 (confirmed): in the captured dialect the loop admits into
`posts_data` exactly the records passing `keepPost`, whose negation is
"display URL falsy, or flagged as a video" — rejection is silent
filtering, not an error; in the live dialect (with every blob fetch
succeeding and no post cap) exactly the non-video nodes are collected. -/
theorem C7_rejection_rule :
    (∀ es : List JValue, extractLoop [] es = (processAll es).map (List.filter keepPost)) ∧
    (∀ post : JValue, keepPost post = false ↔
      (truthy (jfield post "display_url") = false ∨ truthy (jfield post "is_video") = true)) ∧
    (∀ (fetchOk : LivePost → Bool), (∀ p, fetchOk p = true) →
      ∀ ps : List LivePost, downloadLoop fetchOk none ps 0 =
        (ps.filter (fun p => !p.is_video)).map buildLiveRecord) := by
  refine ⟨?_, ?_, ?_⟩
  · intro es
    rw [extractLoop_processAll]
    cases processAll es <;> simp
  · intro post
    rw [keepPost]
    cases h1 : truthy (jfield post "display_url") <;>
      cases h2 : truthy (jfield post "is_video") <;> simp
  · intro fetchOk h ps
    exact downloadLoop_all_fetched fetchOk h ps 0

/-- Witness for `C7_rejection_rule` at a concrete input: one admitted
image node, one rejected video node. -/
theorem C7_rejection_rule_witness :
    downloadLoop (fun _ => true) none
      [{ mediaid := 1, shortcode := "aa", url := "u", date_utc := 0, likes := 2,
         comments := 0, caption := some "c", is_video := false, video_url := none,
         width := 1, height := 1, caption_hashtags := [], caption_mentions := [] },
       { mediaid := 2, shortcode := "bb", url := "v", date_utc := 5, likes := 3,
         comments := 1, caption := none, is_video := true, video_url := some "w",
         width := 1, height := 1, caption_hashtags := [], caption_mentions := [] }] 0 =
      [buildLiveRecord
        { mediaid := 1, shortcode := "aa", url := "u", date_utc := 0, likes := 2,
          comments := 0, caption := some "c", is_video := false, video_url := none,
          width := 1, height := 1, caption_hashtags := [], caption_mentions := [] }] := by
  rw [C7_rejection_rule.2.2 (fun _ => true) (fun p => rfl) _]
  rfl

/-- Claim C10 (confirmed): `extract_from_response` never resets
`posts_data` — a successful call starting from any current collection
yields exactly that collection followed by the newly accepted records of
the document, so repeated calls accumulate (and duplicate) records. -/
theorem C10_extract_accumulates :
    ∀ (postsData : List JValue) (doc : JValue) (fresh : List JValue),
      extractFromResponse [] doc = some fresh →
      extractFromResponse postsData doc = some (postsData ++ fresh) := by
  intro postsData doc fresh h
  rw [extractFromResponse] at h ⊢
  cases hit : pyIter (findEdges doc) with
  | none =>
    rw [hit, show (do let es ← (none : Option (List JValue)); extractLoop [] es) = none from rfl] at h
    cases h
  | some es =>
    rw [hit] at h
    rw [optBind_some] at h ⊢
    rw [extractLoop_processAll] at h ⊢
    obtain ⟨ps, hpa, hf⟩ := Option.map_eq_some'.mp h
    rw [List.nil_append] at hf
    rw [hpa, Option.map_some', hf]

/-- Witness for `C10_extract_accumulates`: re-extracting the same
one-post document duplicates the record. -/
theorem C10_extract_accumulates_witness :
    extractFromResponse
      [.str "old"]
      (.obj [("edges", .arr [.obj [("node", .obj [("display_url", .str "u"),
        ("taken_at_timestamp", .num 5)])]])]) =
    some [.str "old",
      .obj [("id", .null), ("shortcode", .null), ("display_url", .str "u"),
        ("timestamp", .num 5), ("likes", .num 0), ("comments", .num 0),
        ("caption", .str ""), ("is_video", .bool false), ("dimensions", .obj [])]] :=
  C10_extract_accumulates [.str "old"] _ _ (by decide)

theorem buildPost_keys {node post : JValue} (h : buildPost node = some post) :
    postKeys post = ["id", "shortcode", "display_url", "timestamp", "likes",
      "comments", "caption", "is_video", "dimensions"] := by
  simp only [buildPost, Option.bind_eq_bind', Option.bind_eq_some, Option.pure_def,
    Option.some.injEq] at h
  obtain ⟨a, _, b, _, c, _, d, _, e, _, f, _, g, _, i, _, j, _, k, _, l, _, hpost⟩ := h
  rw [← hpost]
  rfl

/-- The captured-API edge used to test hashtag handling: its caption is
"Loving #life and #growth, thanks @jane". -/
def hashtagProbeEdge : JValue :=
  .obj [("node", .obj [("id", .str "1"), ("shortcode", .str "abc"),
    ("display_url", .str "https://cdn/1.jpg"), ("taken_at_timestamp", .num 345600),
    ("edge_liked_by", .obj [("count", .num 5)]),
    ("edge_media_to_comment", .obj [("count", .num 1)]),
    ("edge_media_to_caption", .obj [("edges", .arr [.obj [("node",
      .obj [("text", .str "Loving #life and #growth, thanks @jane")])]])]),
    ("is_video", .bool false), ("dimensions", .obj [])])]

/-- Claim C6 (corrected), counterexample: normalizing a captured node whose
caption is "Loving #life and #growth, thanks @jane" produces a record with
the caption intact but no `hashtags` or `mentions` field at all — the
captured dialect derives nothing from the caption text, contrary to the
claimed extraction "in both dialects". -/
theorem C6_no_hashtag_extraction_counterexample :
    (processEdge hashtagProbeEdge).map postKeys =
      some ["id", "shortcode", "display_url", "timestamp", "likes",
        "comments", "caption", "is_video", "dimensions"]
    ∧ (processEdge hashtagProbeEdge).map (fun p => jfield p "caption") =
      some (.str "Loving #life and #growth, thanks @jane")
    ∧ (processEdge hashtagProbeEdge).map
        (fun p => decide ("hashtags" ∈ postKeys p) || decide ("mentions" ∈ postKeys p)) =
      some false :=
  ⟨by decide, by decide, by decide⟩

/-- Claim C6 (amended): hashtags and mentions are never derived from the
caption by this repository. A captured-dialect record carries exactly the
nine fields id, shortcode, display_url, timestamp, likes, comments,
caption, is_video and dimensions; a live-dialect record carries hashtag
and mention fields whose contents are copied verbatim from the profile
source's own caption parser (`post.caption_hashtags` /
`post.caption_mentions`), not computed from the caption here. -/
theorem C6_hashtag_handling_amended :
    (∀ node post : JValue, buildPost node = some post →
      postKeys post = ["id", "shortcode", "display_url", "timestamp", "likes",
        "comments", "caption", "is_video", "dimensions"]) ∧
    (∀ p : LivePost,
      jfield (buildLiveRecord p) "hashtags" = .arr (p.caption_hashtags.map .str) ∧
      jfield (buildLiveRecord p) "mentions" = .arr (p.caption_mentions.map .str)) := by
  constructor
  · intro node post h
    exact buildPost_keys h
  · intro p
    constructor
    · rw [buildLiveRecord, jfield]
      cases hh : p.caption_hashtags with
      | nil => simp [List.lookup]
      | cons a l => simp [List.lookup]
    · rw [buildLiveRecord, jfield]
      cases hh : p.caption_mentions with
      | nil => simp [List.lookup]
      | cons a l => simp [List.lookup]

/-- Witness for `C6_hashtag_handling_amended` at the probe edge's node. -/
theorem C6_hashtag_handling_amended_witness :
    postKeys (.obj [("id", .str "1"), ("shortcode", .str "abc"),
      ("display_url", .str "https://cdn/1.jpg"), ("timestamp", .num 345600),
      ("likes", .num 5), ("comments", .num 1),
      ("caption", .str "Loving #life and #growth, thanks @jane"),
      ("is_video", .bool false), ("dimensions", .obj [])]) =
    ["id", "shortcode", "display_url", "timestamp", "likes",
      "comments", "caption", "is_video", "dimensions"] :=
  C6_hashtag_handling_amended.1
    (.obj [("id", .str "1"), ("shortcode", .str "abc"),
      ("display_url", .str "https://cdn/1.jpg"), ("taken_at_timestamp", .num 345600),
      ("edge_liked_by", .obj [("count", .num 5)]),
      ("edge_media_to_comment", .obj [("count", .num 1)]),
      ("edge_media_to_caption", .obj [("edges", .arr [.obj [("node",
        .obj [("text", .str "Loving #life and #growth, thanks @jane")])]])]),
      ("is_video", .bool false), ("dimensions", .obj [])]) _ (by decide)

/-!
## Aggregator (`InstagramAnalyzer.analyze`, `_analyze_account_content`) and
the poster variants

Analysis functions are defined on the relevant columns of the Post
collection: the list of Unix timestamps and the list of like counts, in
collection order.
-/

/-- Weekday name of a Unix timestamp, UTC (`dt.day_name()`): day 0
(1970-01-01) is a Thursday. -/
def weekdayName (ts : Nat) : String :=
  match (ts / 86400 + 3) % 7 with
  | 0 => "Monday"
  | 1 => "Tuesday"
  | 2 => "Wednesday"
  | 3 => "Thursday"
  | 4 => "Friday"
  | 5 => "Saturday"
  | _ => "Sunday"

/-- Distinct values in order of first appearance (the key order produced
while counting). -/
def uniquesInOrder (xs : List String) : List String :=
  xs.foldl (fun acc x => if x ∈ acc then acc else acc ++ [x]) []

/-- Each distinct value with its number of occurrences. -/
def withCounts (xs : List String) : List (String × Nat) :=
  (uniquesInOrder xs).map (fun d => (d, xs.count d))

def insertAscByCount (x : String × Nat) : List (String × Nat) → List (String × Nat)
  | [] => [x]
  | y :: ys => if x.2 < y.2 then x :: y :: ys else y :: insertAscByCount x ys

/-- Stable ascending sort by count. -/
def sortAscByCount (l : List (String × Nat)) : List (String × Nat) :=
  l.foldl (fun acc x => insertAscByCount x acc) []

/-- `Series.value_counts()`: count occurrences, then sort descending.
pandas sorts descending by reversing an ascending argsort
(`pandas.core.sorting.nargsort`: `indexer = argsort(...); if not
ascending: indexer = indexer[::-1]`), so among tied counts the keys come
out in reverse of their pre-sort order; the pre-sort key order is modelled
as first-appearance order. -/
def valueCountsDesc (xs : List String) : List (String × Nat) :=
  (sortAscByCount (withCounts xs)).reverse

/-- `value_counts().idxmax()`: the index label of the first row attaining
the maximal count, i.e. the head of the descending-sorted counts. -/
def mostActiveDayOfNames (names : List String) : String :=
  match valueCountsDesc names with
  | [] => ""
  | (d, _) :: _ => d

/-- `df['day_of_week'].value_counts().idxmax()` of `analyze` (line 151) and
`_draw_insights` (line 350). -/
def mostActiveDay (ts : List Nat) : String :=
  mostActiveDayOfNames (ts.map weekdayName)

/-- Lexicographic (alphabetical, by code point) strict order on strings. -/
def charListBefore : List Char → List Char → Bool
  | _, [] => false
  | [], _ :: _ => true
  | a :: as, b :: bs =>
    if a.toNat < b.toNat then true
    else if b.toNat < a.toNat then false
    else charListBefore as bs

def strBefore (a b : String) : Bool := charListBefore a.toList b.toList

/-- The tie-break rule the spec claims: among the weekdays attaining the
maximal count, the alphabetically first. Written from the spec's words
for comparison with `mostActiveDay`. -/
def specMostActiveAlpha (ts : List Nat) : String :=
  let names := ts.map weekdayName
  let u := uniquesInOrder names
  let m := (u.map (fun d => names.count d)).foldr max 0
  match u.filter (fun d => names.count d = m) with
  | [] => ""
  | d :: rest => rest.foldl (fun a b => if strBefore b a then b else a) d

example : mostActiveDay [345600, 432000] = "Tuesday" := by decide
example : mostActiveDay [432000, 345600] = "Monday" := by decide
example : specMostActiveAlpha [345600, 432000] = "Monday" := by decide
example : mostActiveDay [345600, 345600, 432000] = "Monday" := by decide

theorem mem_insertAscByCount {x z : String × Nat} :
    ∀ {l : List (String × Nat)}, z ∈ insertAscByCount x l ↔ z = x ∨ z ∈ l := by
  intro l
  induction l with
  | nil => simp [insertAscByCount]
  | cons y ys ih =>
    rw [insertAscByCount]
    by_cases h : x.2 < y.2
    · simp [h, or_comm, or_assoc, or_left_comm]
    · simp only [h, if_false, List.mem_cons, ih]
      tauto

theorem pairwise_insertAscByCount {x : String × Nat} {l : List (String × Nat)}
    (h : l.Pairwise (fun a b => a.2 ≤ b.2)) :
    (insertAscByCount x l).Pairwise (fun a b => a.2 ≤ b.2) := by
  induction l with
  | nil => simp [insertAscByCount]
  | cons y ys ih =>
    rw [List.pairwise_cons] at h
    rw [insertAscByCount]
    by_cases hxy : x.2 < y.2
    · rw [if_pos hxy]
      refine List.Pairwise.cons ?_ (List.Pairwise.cons h.1 h.2)
      intro z hz
      rcases List.mem_cons.mp hz with rfl | hz
      · exact le_of_lt hxy
      · exact le_trans (le_of_lt hxy) (h.1 z hz)
    · rw [if_neg hxy]
      refine List.Pairwise.cons ?_ (ih h.2)
      intro z hz
      rcases mem_insertAscByCount.mp hz with rfl | hz
      · exact le_of_not_lt hxy
      · exact h.1 z hz

theorem mem_sortAscByCount {z : String × Nat} {l : List (String × Nat)} :
    z ∈ sortAscByCount l ↔ z ∈ l := by
  have key : ∀ (l acc : List (String × Nat)),
      z ∈ l.foldl (fun acc x => insertAscByCount x acc) acc ↔ z ∈ acc ∨ z ∈ l := by
    intro l
    induction l with
    | nil => simp
    | cons y ys ih =>
      intro acc
      rw [List.foldl_cons, ih, mem_insertAscByCount]
      simp only [List.mem_cons]
      tauto
  rw [sortAscByCount, key]
  simp

theorem pairwise_sortAscByCount (l : List (String × Nat)) :
    (sortAscByCount l).Pairwise (fun a b => a.2 ≤ b.2) := by
  have key : ∀ (l acc : List (String × Nat)),
      acc.Pairwise (fun a b => a.2 ≤ b.2) →
      (l.foldl (fun acc x => insertAscByCount x acc) acc).Pairwise (fun a b => a.2 ≤ b.2) := by
    intro l
    induction l with
    | nil => intro acc h; exact h
    | cons y ys ih =>
      intro acc h
      rw [List.foldl_cons]
      exact ih _ (pairwise_insertAscByCount h)
  exact key l [] List.Pairwise.nil

theorem mem_uniquesInOrder {x : String} {xs : List String} :
    x ∈ uniquesInOrder xs ↔ x ∈ xs := by
  have key : ∀ (xs acc : List String),
      x ∈ xs.foldl (fun acc y => if y ∈ acc then acc else acc ++ [y]) acc ↔
        x ∈ acc ∨ x ∈ xs := by
    intro xs
    induction xs with
    | nil => simp
    | cons y ys ih =>
      intro acc
      rw [List.foldl_cons, ih]
      by_cases hy : y ∈ acc
      · simp only [hy, if_true, List.mem_cons]
        constructor
        · rintro (h | h)
          · exact Or.inl h
          · exact Or.inr (Or.inr h)
        · rintro (h | rfl | h)
          · exact Or.inl h
          · exact Or.inl hy
          · exact Or.inr h
      · simp only [hy, if_false, List.mem_append, List.mem_singleton, List.mem_cons]
        tauto
  rw [uniquesInOrder, key]
  simp

theorem mem_withCounts {a : String} {b : Nat} {xs : List String}
    (h : (a, b) ∈ withCounts xs) : a ∈ xs ∧ b = xs.count a := by
  rw [withCounts] at h
  obtain ⟨d, hd, heq⟩ := List.mem_map.mp h
  rcases Prod.mk.injEq .. ▸ heq with h'
  obtain ⟨rfl, rfl⟩ := Prod.mk.injEq .. |>.mp heq
  exact ⟨mem_uniquesInOrder.mp hd, rfl⟩

theorem withCounts_mem {d : String} {xs : List String} (h : d ∈ xs) :
    (d, xs.count d) ∈ withCounts xs := by
  rw [withCounts]
  exact List.mem_map.mpr ⟨d, mem_uniquesInOrder.mpr h, rfl⟩

theorem mostActiveDayOfNames_spec (names : List String) (h : names ≠ []) :
    mostActiveDayOfNames names ∈ names ∧
      ∀ d ∈ names, names.count d ≤ names.count (mostActiveDayOfNames names) := by
  obtain ⟨n, rest, rfl⟩ := List.exists_cons_of_ne_nil h
  have hn : (n, (n :: rest).count n) ∈ withCounts (n :: rest) :=
    withCounts_mem (List.mem_cons_self _ _)
  have hns : (n, (n :: rest).count n) ∈ sortAscByCount (withCounts (n :: rest)) :=
    mem_sortAscByCount.mpr hn
  have hnr : (n, (n :: rest).count n) ∈ valueCountsDesc (n :: rest) := by
    rw [valueCountsDesc]
    exact List.mem_reverse.mpr hns
  cases hvc : valueCountsDesc (n :: rest) with
  | nil => rw [hvc] at hnr; cases hnr
  | cons dc tail =>
    obtain ⟨d, c⟩ := dc
    have hday : mostActiveDayOfNames (n :: rest) = d := by
      rw [mostActiveDayOfNames, hvc]
    have hrevp : ((sortAscByCount (withCounts (n :: rest))).reverse).Pairwise
        (fun a b => b.2 ≤ a.2) := by
      rw [List.pairwise_reverse]
      exact pairwise_sortAscByCount _
    rw [show (sortAscByCount (withCounts (n :: rest))).reverse =
      valueCountsDesc (n :: rest) from rfl, hvc] at hrevp
    rw [List.pairwise_cons] at hrevp
    have hdm : (d, c) ∈ withCounts (n :: rest) := by
      have : (d, c) ∈ valueCountsDesc (n :: rest) := by
        rw [hvc]; exact List.mem_cons_self _ _
      rw [valueCountsDesc, List.mem_reverse] at this
      exact mem_sortAscByCount.mp this
    obtain ⟨hdmem, hc⟩ := mem_withCounts hdm
    refine ⟨hday ▸ hdmem, ?_⟩
    intro e he
    have hem : (e, (n :: rest).count e) ∈ valueCountsDesc (n :: rest) := by
      rw [valueCountsDesc, List.mem_reverse]
      exact mem_sortAscByCount.mpr (withCounts_mem he)
    rw [hvc] at hem
    rw [hday, ← hc]
    rcases List.mem_cons.mp hem with heq | htail
    · exact le_of_eq (congrArg Prod.snd heq)
    · exact hrevp.1 _ htail

/-- Claim C3 (corrected), counterexample: with one Monday post and one
Tuesday post, in that order, `value_counts().idxmax()` yields "Tuesday"
(pandas breaks count ties by its internal ordering — descending sorting
reverses the tied keys — never by comparing the weekday names), while the
claimed alphabetical tie-break designates "Monday". Timestamp 345600 is
Monday 1970-01-05, 432000 is Tuesday 1970-01-06, UTC. -/
theorem C3_alphabetical_tie_counterexample :
    mostActiveDay [345600, 432000] = "Tuesday"
    ∧ specMostActiveAlpha [345600, 432000] = "Monday"
    ∧ ("Tuesday" : String) ≠ "Monday" :=
  ⟨by decide, by decide, by decide⟩

/-- Claim C3 (amended): "most active day" is always a weekday attaining
the maximal post count, and whenever one weekday has the strictly highest
count it is exactly that weekday; on ties the winner is decided by
pandas' internal value ordering, not alphabetically. -/
theorem C3_most_active_day_amended :
    (∀ ts : List Nat, ts ≠ [] →
      mostActiveDay ts ∈ ts.map weekdayName ∧
      ∀ d ∈ ts.map weekdayName,
        (ts.map weekdayName).count d ≤ (ts.map weekdayName).count (mostActiveDay ts)) ∧
    (∀ (ts : List Nat) (d : String), d ∈ ts.map weekdayName →
      (∀ e ∈ ts.map weekdayName, e ≠ d →
        (ts.map weekdayName).count e < (ts.map weekdayName).count d) →
      mostActiveDay ts = d) := by
  have base : ∀ ts : List Nat, ts ≠ [] →
      mostActiveDay ts ∈ ts.map weekdayName ∧
      ∀ d ∈ ts.map weekdayName,
        (ts.map weekdayName).count d ≤ (ts.map weekdayName).count (mostActiveDay ts) := by
    intro ts h
    have hmap : ts.map weekdayName ≠ [] := by
      intro hc
      exact h (List.map_eq_nil_iff.mp hc)
    rw [mostActiveDay]
    exact mostActiveDayOfNames_spec _ hmap
  refine ⟨base, ?_⟩
  intro ts d hd hstrict
  have hne : ts ≠ [] := by
    rintro rfl
    cases hd
  obtain ⟨hmem, hbound⟩ := base ts hne
  by_contra hda
  have h1 := hstrict (mostActiveDay ts) hmem hda
  have h2 := hbound d hd
  omega

/-- Witness for `C3_most_active_day_amended`: two Monday posts and one
Tuesday post give "Monday". -/
theorem C3_most_active_day_amended_witness :
    mostActiveDay [345600, 345600, 432000] = "Monday" :=
  C3_most_active_day_amended.2 [345600, 345600, 432000] "Monday" (by decide) (by decide)

/-!
## Posting cadence and influence tier (`_analyze_account_content`,
`PosterDesigner._analyze_account`)

```python
avg_likes = df['likes'].mean()
if avg_likes > 10000:
    influence_level = "High-influence creator"
elif avg_likes > 1000:
    influence_level = "Growing creator"
else:
    influence_level = "Emerging creator"
...
if total_posts >= 3:
    posting_freq = (df['datetime'].max() - df['datetime'].min()).days / total_posts
    if posting_freq < 2:
        insight += "Frequent posting schedule maintains audience connection."
    elif posting_freq < 7:
        insight += "Regular posting cadence keeps content fresh."
    else:
        insight += "Measured posting approach focuses on quality over quantity."
```

and in `poster_designer.py`:
`level = "High-engagement" if avg_likes > 5000 else "Growing" if avg_likes > 1000 else "Emerging"`.
-/

def tsMin (ts : List Nat) : Nat :=
  match ts with
  | [] => 0
  | x :: xs => xs.foldl min x

def tsMax (ts : List Nat) : Nat :=
  match ts with
  | [] => 0
  | x :: xs => xs.foldl max x

/-- `(df['datetime'].max() - df['datetime'].min()).days`: the timestamp
span in whole days (`Timedelta.days` floors; the span is non-negative). -/
def rangeDays (ts : List Nat) : Nat := (tsMax ts - tsMin ts) / 86400

/-- `posting_freq = (...).days / total_posts` (Python true division). -/
def postingFreq (ts : List Nat) : ℚ := (rangeDays ts : ℚ) / (ts.length : ℚ)

def freqSentence : String := "Frequent posting schedule maintains audience connection."

def regSentence : String := "Regular posting cadence keeps content fresh."

def measSentence : String := "Measured posting approach focuses on quality over quantity."

/-- The posting-cadence sentence appended to the content insight: chosen
from `posting_freq` when the collection has at least 3 posts, absent
otherwise. -/
def cadenceRemark (ts : List Nat) : Option String :=
  if 3 ≤ ts.length then
    some (if postingFreq ts < 2 then freqSentence
      else if postingFreq ts < 7 then regSentence
      else measSentence)
  else none

/-- The cadence rule the spec claims, written from the spec's words: the
mean number of days between successive posts (for at least two posts),
against the thresholds 2 and 7. -/
def specMeanGapDays (ts : List Nat) : ℚ :=
  ((((ts.zip ts.tail).map (fun p => (p.2 : Int) - (p.1 : Int))).sum : ℚ)) /
    (86400 * ((ts.length : ℚ) - 1))

/-- The qualifier the spec's rule assigns. -/
def specCadenceLabel (ts : List Nat) : String :=
  if specMeanGapDays ts < 2 then "frequent"
  else if specMeanGapDays ts < 7 then "regular"
  else "measured"

/-- `df['likes'].mean()`. -/
def avgLikes (likes : List Nat) : ℚ := ((likes.sum : ℚ)) / ((likes.length : ℚ))

/-- The analyzer's influence tier (strict comparisons, lines 449-454). -/
def influenceLevel (likes : List Nat) : String :=
  if 10000 < avgLikes likes then "High-influence creator"
  else if 1000 < avgLikes likes then "Growing creator"
  else "Emerging creator"

/-- The poster designer's influence tier (line 396): threshold 5000, not
10000. -/
def posterInfluenceLevel (likes : List Nat) : String :=
  if 5000 < avgLikes likes then "High-engagement"
  else if 1000 < avgLikes likes then "Growing"
  else "Emerging"

inductive Tier where
  | high : Tier
  | mid : Tier
  | low : Tier
deriving DecidableEq

/-- The tier the spec claims, with inclusive thresholds: high for mean
likes at least 10000, mid for at least 1000, low otherwise. -/
def specTier (m : ℚ) : Tier :=
  if 10000 ≤ m then .high else if 1000 ≤ m then .mid else .low

/-- The tier named by each analyzer output string. -/
def tierOfLevel (s : String) : Tier :=
  if s = "High-influence creator" then .high
  else if s = "Growing creator" then .mid
  else .low

/-- Claim C4 (corrected), counterexample: three posts at days 0, 1 and 5
have mean gap between successive posts of 5/2 days — "regular" under the
claimed rule — yet the code divides the whole-day span (5) by the post
count (3), gets 5/3 < 2, and emits the "frequent" sentence; and a
two-post collection gets no cadence qualifier at all although the claim
promises one for every non-empty collection. -/
theorem C4_cadence_counterexample :
    cadenceRemark [0, 86400, 432000] = some freqSentence
    ∧ specMeanGapDays [0, 86400, 432000] = 5 / 2
    ∧ specCadenceLabel [0, 86400, 432000] = "regular"
    ∧ freqSentence ≠ regSentence
    ∧ cadenceRemark [0, 1000000] = none := by
  have hrange : rangeDays [0, 86400, 432000] = 5 := by decide
  have hfreq : postingFreq [0, 86400, 432000] = 5 / 3 := by
    rw [postingFreq, hrange]
    norm_num
  have hsum : ((([0, 86400, 432000] : List Nat).zip
      ([0, 86400, 432000] : List Nat).tail).map
      (fun p => ((p.2 : Int)) - ((p.1 : Int)))).sum = 432000 := by decide
  have hmean : specMeanGapDays [0, 86400, 432000] = 5 / 2 := by
    rw [specMeanGapDays, hsum]
    norm_num
  refine ⟨?_, hmean, ?_, by decide, ?_⟩
  · rw [cadenceRemark, if_pos (by decide : 3 ≤ [0, 86400, 432000].length), hfreq,
      if_pos (by norm_num)]
  · rw [specCadenceLabel, hmean, if_neg (by norm_num), if_pos (by norm_num)]
  · rw [cadenceRemark, if_neg (by decide : ¬ 3 ≤ [0, 1000000].length)]

/-- Claim C4 (amended): only for collections of at least 3 posts is a
cadence qualifier emitted, computed from the whole-day timestamp span
divided by the post count (not the mean successive gap): "frequent" when
span_days < 2·count, "regular" when span_days < 7·count, else
"measured". -/
theorem C4_cadence_amended : ∀ ts : List Nat,
    (cadenceRemark ts = none ↔ ts.length < 3) ∧
    (cadenceRemark ts = some freqSentence ↔
      3 ≤ ts.length ∧ rangeDays ts < 2 * ts.length) ∧
    (cadenceRemark ts = some regSentence ↔
      3 ≤ ts.length ∧ 2 * ts.length ≤ rangeDays ts ∧ rangeDays ts < 7 * ts.length) ∧
    (cadenceRemark ts = some measSentence ↔
      3 ≤ ts.length ∧ 7 * ts.length ≤ rangeDays ts) := by
  intro ts
  by_cases h3 : 3 ≤ ts.length
  · have hl : (0 : ℚ) < (ts.length : ℚ) := by
      have h : 0 < ts.length := by omega
      exact_mod_cast h
    have h2iff : postingFreq ts < 2 ↔ rangeDays ts < 2 * ts.length := by
      rw [postingFreq, div_lt_iff₀ hl]
      exact_mod_cast Iff.rfl
    have h7iff : postingFreq ts < 7 ↔ rangeDays ts < 7 * ts.length := by
      rw [postingFreq, div_lt_iff₀ hl]
      exact_mod_cast Iff.rfl
    rw [cadenceRemark, if_pos h3]
    by_cases hf : postingFreq ts < 2
    · have hr : rangeDays ts < 2 * ts.length := h2iff.mp hf
      rw [if_pos hf]
      refine ⟨iff_of_false (by simp) (by omega),
        iff_of_true rfl ⟨h3, hr⟩,
        iff_of_false (fun h => absurd (Option.some.inj h) (by decide)) ?_,
        iff_of_false (fun h => absurd (Option.some.inj h) (by decide)) ?_⟩
      · rintro ⟨-, hge, -⟩
        omega
      · rintro ⟨-, hge⟩
        omega
    · have hge2 : 2 * ts.length ≤ rangeDays ts := by
        have := (not_iff_not.mpr h2iff).mp hf
        omega
      rw [if_neg hf]
      by_cases hg : postingFreq ts < 7
      · have hr : rangeDays ts < 7 * ts.length := h7iff.mp hg
        rw [if_pos hg]
        refine ⟨iff_of_false (by simp) (by omega),
          iff_of_false (fun h => absurd (Option.some.inj h) (by decide)) ?_,
          iff_of_true rfl ⟨h3, hge2, hr⟩,
          iff_of_false (fun h => absurd (Option.some.inj h) (by decide)) ?_⟩
        · rintro ⟨-, hlt⟩
          omega
        · rintro ⟨-, hge⟩
          omega
      · have hge7 : 7 * ts.length ≤ rangeDays ts := by
          have := (not_iff_not.mpr h7iff).mp hg
          omega
        rw [if_neg hg]
        refine ⟨iff_of_false (by simp) (by omega),
          iff_of_false (fun h => absurd (Option.some.inj h) (by decide)) ?_,
          iff_of_false (fun h => absurd (Option.some.inj h) (by decide)) ?_,
          iff_of_true rfl ⟨h3, hge7⟩⟩
        · rintro ⟨-, hlt⟩
          omega
        · rintro ⟨-, -, hlt⟩
          omega
  · rw [cadenceRemark, if_neg h3]
    exact ⟨iff_of_true rfl (by omega),
      iff_of_false (by simp) (fun h => h3 h.1),
      iff_of_false (by simp) (fun h => h3 h.1),
      iff_of_false (by simp) (fun h => h3 h.1)⟩

/-- Witness for `C4_cadence_amended`: three same-day posts are
"frequent"; the instantiated equivalences at that input. -/
theorem C4_cadence_amended_witness :
    cadenceRemark [10, 20, 30] = some freqSentence ∧ rangeDays [10, 20, 30] < 2 * 3 :=
  ⟨((C4_cadence_amended [10, 20, 30]).2.1).mpr ⟨by decide, by decide⟩, by decide⟩

/-- Claim C5 (corrected), counterexample: a collection whose mean likes is
exactly 10000 is classified "Growing creator" (mid tier) because the code
compares strictly (`avg_likes > 10000`), while the claim's inclusive
threshold (high ⟺ mean ≥ 10000) puts it in the high tier; and the poster
designer's copy uses a different high threshold (5000, strict), so at
mean likes 6000 the two classifications disagree. -/
theorem C5_influence_counterexample :
    avgLikes [10000] = 10000
    ∧ influenceLevel [10000] = "Growing creator"
    ∧ specTier (avgLikes [10000]) = Tier.high
    ∧ tierOfLevel (influenceLevel [10000]) = Tier.mid
    ∧ influenceLevel [6000] = "Growing creator"
    ∧ posterInfluenceLevel [6000] = "High-engagement" := by
  have h1 : avgLikes [10000] = 10000 := by
    rw [avgLikes]
    norm_num
  have h6 : avgLikes [6000] = 6000 := by
    rw [avgLikes]
    norm_num
  have hlev : influenceLevel [10000] = "Growing creator" := by
    rw [influenceLevel, h1, if_neg (by norm_num), if_pos (by norm_num)]
  refine ⟨h1, hlev, ?_, ?_, ?_, ?_⟩
  · rw [h1, specTier, if_pos (by norm_num)]
  · rw [hlev, tierOfLevel, if_neg (by decide), if_pos rfl]
  · rw [influenceLevel, h6, if_neg (by norm_num), if_pos (by norm_num)]
  · rw [posterInfluenceLevel, h6, if_pos (by norm_num)]

/-- Claim C5 (amended): the analyzer's tier thresholds are strict — high
exactly when mean likes > 10000, mid exactly when 1000 < mean ≤ 10000,
low otherwise — and the poster designer's copy is not identical: its high
tier triggers at mean likes > 5000. -/
theorem C5_influence_amended : ∀ likes : List Nat,
    (influenceLevel likes = "High-influence creator" ↔ 10000 < avgLikes likes) ∧
    (influenceLevel likes = "Growing creator" ↔
      1000 < avgLikes likes ∧ avgLikes likes ≤ 10000) ∧
    (influenceLevel likes = "Emerging creator" ↔ avgLikes likes ≤ 1000) ∧
    (posterInfluenceLevel likes = "High-engagement" ↔ 5000 < avgLikes likes) := by
  intro likes
  have hposter : posterInfluenceLevel likes = "High-engagement" ↔ 5000 < avgLikes likes := by
    rw [posterInfluenceLevel]
    by_cases h5 : 5000 < avgLikes likes
    · rw [if_pos h5]
      exact iff_of_true rfl h5
    · rw [if_neg h5]
      by_cases h1 : 1000 < avgLikes likes
      · rw [if_pos h1]
        exact iff_of_false (by decide) h5
      · rw [if_neg h1]
        exact iff_of_false (by decide) h5
  rw [influenceLevel]
  by_cases hh : 10000 < avgLikes likes
  · rw [if_pos hh]
    exact ⟨iff_of_true rfl hh,
      iff_of_false (by decide) (fun h => absurd hh (not_lt.mpr h.2)),
      iff_of_false (by decide) (fun h => absurd (lt_trans (by norm_num) hh) (not_lt.mpr h)),
      hposter⟩
  · rw [if_neg hh]
    by_cases hm : 1000 < avgLikes likes
    · rw [if_pos hm]
      exact ⟨iff_of_false (by decide) hh,
        iff_of_true rfl ⟨hm, le_of_not_lt hh⟩,
        iff_of_false (by decide) (fun h => absurd hm (not_lt.mpr h)),
        hposter⟩
    · rw [if_neg hm]
      exact ⟨iff_of_false (by decide) hh,
        iff_of_false (by decide) (fun h => absurd h.1 hm),
        iff_of_true rfl (le_of_not_lt hm),
        hposter⟩

/-!
## Poster Assembler top-3 selection
(`df.nlargest(3, 'likes')` in `generate_poster` line 314 and
`_draw_top_posts` line 228)

`Series.nlargest` with the default `keep='first'` sorts descending with a
stable order among ties (its implementation negates the values and takes a
stable `mergesort` argsort), preferring earlier rows, and returns the
first three rows. Rows are modelled as (original index, likes) pairs.
-/

/-- Strict priority of rows `a` over `b`: strictly more likes, or equal
likes and an earlier original position. -/
def likeOrder (a b : Nat × Nat) : Prop := b.2 < a.2 ∨ (a.2 = b.2 ∧ a.1 < b.1)

def insertDescByLikes (x : Nat × Nat) : List (Nat × Nat) → List (Nat × Nat)
  | [] => [x]
  | y :: ys => if y.2 ≤ x.2 then x :: y :: ys else y :: insertDescByLikes x ys

/-- Stable descending sort by likes (insertion from the right keeps the
earlier of two equal rows first). -/
def sortDescByLikes : List (Nat × Nat) → List (Nat × Nat)
  | [] => []
  | x :: xs => insertDescByLikes x (sortDescByLikes xs)

/-- `df.nlargest(3, 'likes')` on the indexed likes column. -/
def topByLikes (likes : List Nat) : List (Nat × Nat) :=
  (sortDescByLikes likes.enum).take 3

example : topByLikes [50, 10, 50, 30, 5] = [(0, 50), (2, 50), (3, 30)] := by decide

theorem mem_insertDescByLikes {x z : Nat × Nat} :
    ∀ {l : List (Nat × Nat)}, z ∈ insertDescByLikes x l ↔ z = x ∨ z ∈ l := by
  intro l
  induction l with
  | nil => simp [insertDescByLikes]
  | cons y ys ih =>
    rw [insertDescByLikes]
    by_cases h : y.2 ≤ x.2
    · simp [h, or_comm, or_assoc, or_left_comm]
    · simp only [h, if_false, List.mem_cons, ih]
      tauto

theorem perm_insertDescByLikes (x : Nat × Nat) :
    ∀ l : List (Nat × Nat), List.Perm (insertDescByLikes x l) (x :: l) := by
  intro l
  induction l with
  | nil => rfl
  | cons y ys ih =>
    rw [insertDescByLikes]
    by_cases h : y.2 ≤ x.2
    · rw [if_pos h]
    · rw [if_neg h]
      exact ((ih.cons y).trans (List.Perm.swap x y ys))

theorem perm_sortDescByLikes : ∀ l : List (Nat × Nat), List.Perm (sortDescByLikes l) l := by
  intro l
  induction l with
  | nil => rfl
  | cons x xs ih =>
    rw [sortDescByLikes]
    exact (perm_insertDescByLikes x (sortDescByLikes xs)).trans (ih.cons x)

theorem pairwise_insertDescByLikes {x : Nat × Nat} {l : List (Nat × Nat)}
    (hp : l.Pairwise likeOrder) (hidx : ∀ y ∈ l, x.1 < y.1) :
    (insertDescByLikes x l).Pairwise likeOrder := by
  induction l with
  | nil => simp [insertDescByLikes]
  | cons y ys ih =>
    rw [List.pairwise_cons] at hp
    rw [insertDescByLikes]
    by_cases h : y.2 ≤ x.2
    · rw [if_pos h]
      refine List.Pairwise.cons ?_ (List.Pairwise.cons hp.1 hp.2)
      intro z hz
      rcases List.mem_cons.mp hz with rfl | hz
      · rcases lt_or_eq_of_le h with hlt | heq
        · exact Or.inl hlt
        · exact Or.inr ⟨heq.symm, hidx z (List.mem_cons_self _ _)⟩
      · have hyz := hp.1 z hz
        have hz2 : z.2 ≤ y.2 := by
          rcases hyz with hlt | ⟨heq, -⟩
          · exact le_of_lt hlt
          · exact le_of_eq heq.symm
        rcases lt_or_eq_of_le (le_trans hz2 h) with hlt | heq
        · exact Or.inl hlt
        · exact Or.inr ⟨heq.symm, hidx z (List.mem_cons_of_mem _ hz)⟩
    · rw [if_neg h]
      refine List.Pairwise.cons ?_ (ih hp.2 (fun z hz => hidx z (List.mem_cons_of_mem _ hz)))
      intro z hz
      rcases mem_insertDescByLikes.mp hz with rfl | hz
      · exact Or.inl (lt_of_not_le h)
      · exact hp.1 z hz

theorem pairwise_sortDescByLikes {l : List (Nat × Nat)}
    (hidx : l.Pairwise (fun a b => a.1 < b.1)) :
    (sortDescByLikes l).Pairwise likeOrder := by
  induction l with
  | nil => simp [sortDescByLikes]
  | cons x xs ih =>
    rw [List.pairwise_cons] at hidx
    rw [sortDescByLikes]
    refine pairwise_insertDescByLikes (ih hidx.2) ?_
    intro y hy
    exact hidx.1 y ((perm_sortDescByLikes xs).mem_iff.mp hy)

theorem pairwise_fst_lt_enumFrom {α : Type} (l : List α) :
    ∀ n, (l.enumFrom n).Pairwise (fun a b : Nat × α => a.1 < b.1) := by
  induction l with
  | nil => intro n; simp
  | cons x xs ih =>
    intro n
    rw [List.enumFrom]
    refine List.Pairwise.cons ?_ (ih (n + 1))
    intro y hy
    have := List.le_fst_of_mem_enumFrom hy
    omega

theorem pairwise_fst_lt_enum {α : Type} (l : List α) :
    l.enum.Pairwise (fun a b : Nat × α => a.1 < b.1) := by
  rw [List.enum]
  exact pairwise_fst_lt_enumFrom l 0

/-- Claim C9 (confirmed): the selection has `min 3 n` rows, drawn from the
collection's (index, likes) rows, listed in strictly decreasing priority
(likes descending, ties by original position), and every selected row has
priority over every omitted row; on likes [50, 10, 50, 30, 5] it returns
the two likes-50 rows in original order and then the likes-30 row. -/
theorem C9_top3_by_likes (likes : List Nat) :
    (topByLikes likes).length = min 3 likes.length
    ∧ (topByLikes likes).Pairwise likeOrder
    ∧ (∀ a ∈ topByLikes likes, a ∈ likes.enum)
    ∧ (∀ a ∈ topByLikes likes, ∀ b ∈ likes.enum, b ∉ topByLikes likes → likeOrder a b)
    ∧ topByLikes [50, 10, 50, 30, 5] = [(0, 50), (2, 50), (3, 30)] := by
  have hperm := perm_sortDescByLikes likes.enum
  have hpair := pairwise_sortDescByLikes (pairwise_fst_lt_enum likes)
  have hsplit := List.take_append_drop 3 (sortDescByLikes likes.enum)
  refine ⟨?_, ?_, ?_, ?_, by decide⟩
  · rw [topByLikes, List.length_take, hperm.length_eq, List.enum_length]
  · exact hpair.sublist (List.take_sublist _ _)
  · intro a ha
    exact hperm.mem_iff.mp (List.take_subset _ _ ha)
  · intro a ha b hb hbn
    have hbs : b ∈ sortDescByLikes likes.enum := hperm.mem_iff.mpr hb
    rw [← hsplit] at hbs
    rcases List.mem_append.mp hbs with hbt | hbd
    · exact absurd hbt hbn
    · have := (List.pairwise_append.mp (hsplit ▸ hpair)).2.2
      exact this a ha b hbd

/-!
## Persisted Post collection (`_save_metadata` / `load_from_metadata`)

`json.dump(self.posts_data, f, indent=2)` and `json.load(f)`, modelled at
the character level. The serializer follows CPython's `json` with its
defaults: two-space indentation, separators `","` / `": "`, and
`ensure_ascii=True` (every character outside printable ASCII becomes a
`\uXXXX` escape, astral characters a surrogate pair). The parser is a
standard JSON reader for the same subset (numbers are integers, as every
numeric Post field is). Texts are lists of characters; with
`ensure_ascii` the serialized text is pure ASCII, so character identity
is byte identity.
-/

def hexDigitChar (d : Nat) : Char := Char.ofNat (if d < 10 then 48 + d else 87 + d)

def hex4 (n : Nat) : List Char :=
  [hexDigitChar (n / 4096 % 16), hexDigitChar (n / 256 % 16),
    hexDigitChar (n / 16 % 16), hexDigitChar (n % 16)]

def hexVal (c : Char) : Option Nat :=
  if 48 ≤ c.toNat ∧ c.toNat ≤ 57 then some (c.toNat - 48)
  else if 97 ≤ c.toNat ∧ c.toNat ≤ 102 then some (c.toNat - 87)
  else if 65 ≤ c.toNat ∧ c.toNat ≤ 70 then some (c.toNat - 55)
  else none

/-- One character of `json.dump`'s string escaping (`ensure_ascii=True`):
quote, backslash and the C escapes specially; printable ASCII verbatim;
everything else as `\uXXXX`, astral characters as a surrogate pair. -/
def escChar (c : Char) : List Char :=
  if c = '"' then ['\\', '"']
  else if c = '\\' then ['\\', '\\']
  else if c = '\n' then ['\\', 'n']
  else if c = '\r' then ['\\', 'r']
  else if c = '\t' then ['\\', 't']
  else if c.toNat = 8 then ['\\', 'b']
  else if c.toNat = 12 then ['\\', 'f']
  else if 32 ≤ c.toNat ∧ c.toNat ≤ 126 then [c]
  else if c.toNat < 65536 then '\\' :: 'u' :: hex4 c.toNat
  else
    '\\' :: 'u' :: hex4 (55296 + (c.toNat - 65536) / 1024) ++
      '\\' :: 'u' :: hex4 (56320 + (c.toNat - 65536) % 1024)

def escList (s : List Char) : List Char := s.foldr (fun c acc => escChar c ++ acc) []

def escString (s : String) : List Char := escList s.data

def natCharsAux : Nat → Nat → List Char
  | 0, _ => []
  | _ + 1, 0 => []
  | fuel + 1, n => natCharsAux fuel (n / 10) ++ [Char.ofNat (48 + n % 10)]

/-- Decimal digits of a natural number, most significant first. -/
def natChars (n : Nat) : List Char :=
  if n = 0 then ['0'] else natCharsAux (n + 1) n

/-- `str(n)` for an integer. -/
def intChars (n : Int) : List Char :=
  if n < 0 then '-' :: natChars n.natAbs else natChars n.natAbs

def spaces : Nat → List Char
  | 0 => []
  | n + 1 => ' ' :: spaces n

mutual

def ser : JValue → Nat → List Char
  | .null, _ => ['n', 'u', 'l', 'l']
  | .bool true, _ => ['t', 'r', 'u', 'e']
  | .bool false, _ => ['f', 'a', 'l', 's', 'e']
  | .num n, _ => intChars n
  | .str s, _ => '"' :: escString s ++ ['"']
  | .arr xs, lvl => serArr xs lvl
  | .obj kvs, lvl => serObj kvs lvl

def serArr : List JValue → Nat → List Char
  | [], _ => ['[', ']']
  | x :: xs, lvl =>
    '[' :: '\n' :: spaces (2 * (lvl + 1)) ++ ser x (lvl + 1) ++ serItems xs (lvl + 1) ++
      '\n' :: spaces (2 * lvl) ++ [']']

def serItems : List JValue → Nat → List Char
  | [], _ => []
  | x :: xs, lvl => ',' :: '\n' :: spaces (2 * lvl) ++ ser x lvl ++ serItems xs lvl

def serObj : List (String × JValue) → Nat → List Char
  | [], _ => ['\x7b', '\x7d']
  | kv :: kvs, lvl =>
    '\x7b' :: '\n' :: spaces (2 * (lvl + 1)) ++ serMember kv (lvl + 1) ++
      serMembers kvs (lvl + 1) ++ '\n' :: spaces (2 * lvl) ++ ['\x7d']

def serMember : String × JValue → Nat → List Char
  | (k, v), lvl => '"' :: escString k ++ '"' :: ':' :: ' ' :: ser v lvl

def serMembers : List (String × JValue) → Nat → List Char
  | [], _ => []
  | kv :: kvs, lvl => ',' :: '\n' :: spaces (2 * lvl) ++ serMember kv lvl ++ serMembers kvs lvl

end

/-- `json.dump(value, f, indent=2)`. -/
def jsonDumps (v : JValue) : List Char := ser v 0

def skipWs : List Char → List Char
  | [] => []
  | c :: cs => if c = ' ' ∨ c = '\n' ∨ c = '\t' ∨ c = '\r' then skipWs cs else c :: cs

def isDigitCh (c : Char) : Bool := decide (48 ≤ c.toNat) && decide (c.toNat ≤ 57)

/-!
JSON string body reading (after the opening quote), undoing `escChar`;
lone surrogate escapes are outside the model. `parseUEscape` reads the
four hex digits after a `\u`, and the second escape of a surrogate pair.
-/

/-- The value of four hex digits, most significant first. -/
def hex4Val (h1 h2 h3 h4 : Char) : Option Nat :=
  match hexVal h1, hexVal h2, hexVal h3, hexVal h4 with
  | some a, some b, some c, some d => some (((a * 16 + b) * 16 + c) * 16 + d)
  | _, _, _, _ => none

/-!
JSON string body reading (after the opening quote), undoing `escChar`;
lone surrogate escapes are outside the model. `parseUEscapeChar` decodes
the four hex digits after a `\u` (and the second escape of a surrogate
pair); `parseStrBody` carries fuel bounded by the input length.
-/

def parseUEscapeChar : List Char → Option (Char × List Char)
  | h1 :: h2 :: h3 :: h4 :: cs3 =>
    match hex4Val h1 h2 h3 h4 with
    | some n =>
      if 55296 ≤ n ∧ n ≤ 56319 then
        match cs3 with
        | e2 :: u2 :: g1 :: g2 :: g3 :: g4 :: cs4 =>
          if e2 = '\\' ∧ u2 = 'u' then
            match hex4Val g1 g2 g3 g4 with
            | some m =>
              if 56320 ≤ m ∧ m ≤ 57343 then
                some (Char.ofNat (65536 + (n - 55296) * 1024 + (m - 56320)), cs4)
              else none
            | none => none
          else none
        | _ => none
      else if 56320 ≤ n ∧ n ≤ 57343 then none
      else some (Char.ofNat n, cs3)
    | none => none
  | _ => none

def parseStrBody : Nat → List Char → Option (List Char × List Char)
  | 0, _ => none
  | _ + 1, [] => none
  | fuel + 1, c :: cs =>
    if c = '"' then some ([], cs)
    else if c = '\\' then
      match cs with
      | [] => none
      | e :: cs2 =>
        if e = '"' then (parseStrBody fuel cs2).map (fun r => ('"' :: r.1, r.2))
        else if e = '\\' then (parseStrBody fuel cs2).map (fun r => ('\\' :: r.1, r.2))
        else if e = '/' then (parseStrBody fuel cs2).map (fun r => ('/' :: r.1, r.2))
        else if e = 'n' then (parseStrBody fuel cs2).map (fun r => ('\n' :: r.1, r.2))
        else if e = 'r' then (parseStrBody fuel cs2).map (fun r => ('\r' :: r.1, r.2))
        else if e = 't' then (parseStrBody fuel cs2).map (fun r => ('\t' :: r.1, r.2))
        else if e = 'b' then (parseStrBody fuel cs2).map (fun r => (Char.ofNat 8 :: r.1, r.2))
        else if e = 'f' then (parseStrBody fuel cs2).map (fun r => (Char.ofNat 12 :: r.1, r.2))
        else if e = 'u' then
          match parseUEscapeChar cs2 with
          | some (ch, cs3) => (parseStrBody fuel cs3).map (fun r => (ch :: r.1, r.2))
          | none => none
        else none
    else if c.toNat < 32 then none
    else (parseStrBody fuel cs).map (fun r => (c :: r.1, r.2))

theorem char_toNat_ofNat {n : Nat} (h : n.isValidChar) : (Char.ofNat n).toNat = n := by
  rw [Char.ofNat, dif_pos h]
  rfl

theorem char_valid_nat (c : Char) :
    c.toNat < 55296 ∨ (57344 ≤ c.toNat ∧ c.toNat < 1114112) := by
  rcases c.valid with h | ⟨h1, h2⟩
  · exact Or.inl h
  · exact Or.inr ⟨h1, h2⟩

theorem ne_of_toNat_ne {a b : Char} (h : a.toNat ≠ b.toNat) : a ≠ b :=
  fun e => h (congrArg Char.toNat e)

theorem hexVal_hexDigitChar {d : Nat} (h : d < 16) : hexVal (hexDigitChar d) = some d := by
  interval_cases d <;> decide

theorem escList_cons (c : Char) (s : List Char) :
    escList (c :: s) = escChar c ++ escList s := rfl

theorem hex4Val_hex4 {v : Nat} (h : v < 65536) :
    hex4Val (hexDigitChar (v / 4096 % 16)) (hexDigitChar (v / 256 % 16))
      (hexDigitChar (v / 16 % 16)) (hexDigitChar (v % 16)) = some v := by
  rw [hex4Val, hexVal_hexDigitChar (Nat.mod_lt _ (by norm_num)),
    hexVal_hexDigitChar (Nat.mod_lt _ (by norm_num)),
    hexVal_hexDigitChar (Nat.mod_lt _ (by norm_num)),
    hexVal_hexDigitChar (Nat.mod_lt _ (by norm_num))]
  exact congrArg some (by omega)

theorem parseUEscapeChar_hex4 {v : Nat} (hlt : v < 65536)
    (hns : ¬(55296 ≤ v ∧ v ≤ 57343)) (tail : List Char) :
    parseUEscapeChar (hex4 v ++ tail) = some (Char.ofNat v, tail) := by
  rw [show (hex4 v ++ tail : List Char) = hexDigitChar (v / 4096 % 16) ::
    hexDigitChar (v / 256 % 16) :: hexDigitChar (v / 16 % 16) ::
    hexDigitChar (v % 16) :: tail from rfl]
  rw [parseUEscapeChar, hex4Val_hex4 hlt]
  show (if 55296 ≤ v ∧ v ≤ 56319 then _
    else if 56320 ≤ v ∧ v ≤ 57343 then none
    else some (Char.ofNat v, tail)) = _
  rw [if_neg (by omega : ¬(55296 ≤ v ∧ v ≤ 56319)),
    if_neg (by omega : ¬(56320 ≤ v ∧ v ≤ 57343))]

theorem parseUEscapeChar_pair {v : Nat} (h1 : 65536 ≤ v) (h2 : v < 1114112)
    (tail : List Char) :
    parseUEscapeChar (hex4 (55296 + (v - 65536) / 1024) ++ '\\' :: 'u' ::
        hex4 (56320 + (v - 65536) % 1024) ++ tail) = some (Char.ofNat v, tail) := by
  set hi := 55296 + (v - 65536) / 1024 with hhidef
  set lo := 56320 + (v - 65536) % 1024 with hlodef
  have hhi : hi < 65536 := by omega
  have hlo : lo < 65536 := by omega
  rw [show (hex4 hi ++ '\\' :: 'u' :: hex4 lo ++ tail : List Char) =
      hexDigitChar (hi / 4096 % 16) :: hexDigitChar (hi / 256 % 16) ::
        hexDigitChar (hi / 16 % 16) :: hexDigitChar (hi % 16) ::
        '\\' :: 'u' :: hexDigitChar (lo / 4096 % 16) :: hexDigitChar (lo / 256 % 16) ::
        hexDigitChar (lo / 16 % 16) :: hexDigitChar (lo % 16) :: tail from rfl]
  rw [parseUEscapeChar, hex4Val_hex4 hhi]
  show (if 55296 ≤ hi ∧ hi ≤ 56319 then _ else _) = _
  rw [if_pos (by omega : 55296 ≤ hi ∧ hi ≤ 56319)]
  show (if ('\\' : Char) = '\\' ∧ ('u' : Char) = 'u' then _ else none) = _
  rw [if_pos (⟨rfl, rfl⟩ : ('\\' : Char) = '\\' ∧ ('u' : Char) = 'u'), hex4Val_hex4 hlo]
  show (if 56320 ≤ lo ∧ lo ≤ 57343 then
      some (Char.ofNat (65536 + (hi - 55296) * 1024 + (lo - 56320)), tail)
    else none) = _
  rw [if_pos (by omega : 56320 ≤ lo ∧ lo ≤ 57343)]
  rw [show 65536 + (hi - 55296) * 1024 + (lo - 56320) = v from by omega]

def digitsVal (l : List Char) : Nat := l.foldl (fun a c => 10 * a + (c.toNat - 48)) 0

def parseNumber (cs : List Char) : Option (Int × List Char) :=
  match cs with
  | [] => none
  | c :: rest =>
    if c = '-' then
      let ds := rest.takeWhile isDigitCh
      if ds.isEmpty then none
      else some (-(digitsVal ds : Int), rest.dropWhile isDigitCh)
    else
      let ds := (c :: rest).takeWhile isDigitCh
      if ds.isEmpty then none
      else some ((digitsVal ds : Int), (c :: rest).dropWhile isDigitCh)

mutual

def parseV : Nat → List Char → Option (JValue × List Char)
  | 0, _ => none
  | fuel + 1, cs =>
    match skipWs cs with
    | [] => none
    | c :: cs1 =>
      if c = '"' then
        (parseStrBody (cs1.length + 1) cs1).map (fun r => (.str (String.mk r.1), r.2))
      else if c = '[' then
        let t := skipWs cs1
        if t.head? = some ']' then some (.arr [], t.tail)
        else (parseItems fuel t).map (fun r => (.arr r.1, r.2))
      else if c = '\x7b' then
        let t := skipWs cs1
        if t.head? = some '\x7d' then some (.obj [], t.tail)
        else (parseMembers fuel t).map (fun r => (.obj r.1, r.2))
      else if c = 't' then
        match cs1 with
        | 'r' :: 'u' :: 'e' :: cs2 => some (.bool true, cs2)
        | _ => none
      else if c = 'f' then
        match cs1 with
        | 'a' :: 'l' :: 's' :: 'e' :: cs2 => some (.bool false, cs2)
        | _ => none
      else if c = 'n' then
        match cs1 with
        | 'u' :: 'l' :: 'l' :: cs2 => some (.null, cs2)
        | _ => none
      else if c = '-' ∨ isDigitCh c then
        (parseNumber (c :: cs1)).map (fun r => (.num r.1, r.2))
      else none

def parseItems : Nat → List Char → Option (List JValue × List Char)
  | 0, _ => none
  | fuel + 1, cs => do
    let (v, r) ← parseV fuel cs
    let t := skipWs r
    if t.head? = some ',' then (parseItems fuel t.tail).map (fun p => (v :: p.1, p.2))
    else if t.head? = some ']' then some ([v], t.tail)
    else none

def parseMembers : Nat → List Char → Option (List (String × JValue) × List Char)
  | 0, _ => none
  | fuel + 1, cs =>
    match skipWs cs with
    | '"' :: cs1 => do
      let (k, r) ← parseStrBody (cs1.length + 1) cs1
      match skipWs r with
      | ':' :: r2 => do
        let (v, r3) ← parseV fuel r2
        let t3 := skipWs r3
        if t3.head? = some ',' then
          (parseMembers fuel t3.tail).map (fun p => ((String.mk k, v) :: p.1, p.2))
        else if t3.head? = some '\x7d' then some ([(String.mk k, v)], t3.tail)
        else none
      | _ => none
    | _ => none

end

/-- `json.load(f)` on the file contents: parse one value, then require
only trailing whitespace. -/
def jsonLoads (cs : List Char) : Option JValue :=
  match parseV (cs.length + 1) cs with
  | some (v, rest) => if (skipWs rest).isEmpty then some v else none
  | none => none

/-- `_save_metadata`: `json.dump(self.posts_data, f, indent=2)` — the
Post collection is a JSON array. -/
def saveMetadata (postsData : List JValue) : List Char := jsonDumps (.arr postsData)

example :
    jsonDumps (.arr [.num 1, .obj [("a", .str "x")]]) =
      ('[' :: '\n' :: ' ' :: ' ' :: '1' :: ',' :: '\n' :: ' ' :: ' ' :: '\x7b' :: '\n' ::
        ' ' :: ' ' :: ' ' :: ' ' :: '"' :: 'a' :: '"' :: ':' :: ' ' :: '"' :: 'x' :: '"' ::
        '\n' :: ' ' :: ' ' :: '\x7d' :: '\n' :: [']']) := by decide

example :
    jsonLoads (jsonDumps (.arr [.num 1, .obj [("a", .str "x")]])) =
      some (.arr [.num 1, .obj [("a", .str "x")]]) := by decide

example : jsonLoads (jsonDumps (.num (-37))) = some (.num (-37)) := by decide

example : jsonLoads (jsonDumps (.str "a\"b\\c\nd")) = some (.str "a\"b\\c\nd") := by decide

theorem psb_quote (f : Nat) (cs : List Char) :
    parseStrBody (f + 1) ('"' :: cs) = some ([], cs) := by
  rw [parseStrBody.eq_def]
  simp only [reduceIte, Char.reduceEq]

theorem psb_esc_quote (f : Nat) (cs : List Char) :
    parseStrBody (f + 1) ('\\' :: '"' :: cs) =
      (parseStrBody f cs).map (fun r => ('"' :: r.1, r.2)) := by
  rw [parseStrBody.eq_def]
  simp only [reduceIte, Char.reduceEq]

theorem psb_esc_bslash (f : Nat) (cs : List Char) :
    parseStrBody (f + 1) ('\\' :: '\\' :: cs) =
      (parseStrBody f cs).map (fun r => ('\\' :: r.1, r.2)) := by
  rw [parseStrBody.eq_def]
  simp only [reduceIte, Char.reduceEq]

theorem psb_esc_n (f : Nat) (cs : List Char) :
    parseStrBody (f + 1) ('\\' :: 'n' :: cs) =
      (parseStrBody f cs).map (fun r => ('\n' :: r.1, r.2)) := by
  rw [parseStrBody.eq_def]
  simp only [reduceIte, Char.reduceEq]

theorem psb_esc_r (f : Nat) (cs : List Char) :
    parseStrBody (f + 1) ('\\' :: 'r' :: cs) =
      (parseStrBody f cs).map (fun r => ('\r' :: r.1, r.2)) := by
  rw [parseStrBody.eq_def]
  simp only [reduceIte, Char.reduceEq]

theorem psb_esc_t (f : Nat) (cs : List Char) :
    parseStrBody (f + 1) ('\\' :: 't' :: cs) =
      (parseStrBody f cs).map (fun r => ('\t' :: r.1, r.2)) := by
  rw [parseStrBody.eq_def]
  simp only [reduceIte, Char.reduceEq]

theorem psb_esc_b (f : Nat) (cs : List Char) :
    parseStrBody (f + 1) ('\\' :: 'b' :: cs) =
      (parseStrBody f cs).map (fun r => (Char.ofNat 8 :: r.1, r.2)) := by
  rw [parseStrBody.eq_def]
  simp only [reduceIte, Char.reduceEq]

theorem psb_esc_f (f : Nat) (cs : List Char) :
    parseStrBody (f + 1) ('\\' :: 'f' :: cs) =
      (parseStrBody f cs).map (fun r => (Char.ofNat 12 :: r.1, r.2)) := by
  rw [parseStrBody.eq_def]
  simp only [reduceIte, Char.reduceEq]

theorem psb_esc_u (f : Nat) (cs : List Char) :
    parseStrBody (f + 1) ('\\' :: 'u' :: cs) =
      (match parseUEscapeChar cs with
        | some (ch, cs3) => (parseStrBody f cs3).map (fun r => (ch :: r.1, r.2))
        | none => none) := by
  rw [parseStrBody.eq_def]
  simp only [reduceIte, Char.reduceEq]

theorem psb_plain (f : Nat) (c : Char) (cs : List Char)
    (h1 : ¬ c = '"') (h2 : ¬ c = '\\') (h3 : ¬ c.toNat < 32) :
    parseStrBody (f + 1) (c :: cs) =
      (parseStrBody f cs).map (fun r => (c :: r.1, r.2)) := by
  rw [parseStrBody.eq_def]
  simp only [if_neg h1, if_neg h2, if_neg h3]

theorem parseStrBody_escList :
    ∀ (s rest : List Char) (fuel : Nat), s.length < fuel →
      parseStrBody fuel (escList s ++ '"' :: rest) = some (s, rest) := by
  intro s
  induction s with
  | nil =>
    intro rest fuel hf
    cases fuel with
    | zero => omega
    | succ f =>
      rw [show escList [] ++ '"' :: rest = '"' :: rest from rfl, psb_quote]
  | cons c s ih =>
    intro rest fuel hf
    cases fuel with
    | zero => simp at hf
    | succ f =>
      have hlen : s.length < f := by
        rw [List.length_cons] at hf
        omega
      rw [escList_cons, List.append_assoc]
      by_cases h1 : c = '"'
      · subst h1
        rw [show escChar '"' = ['\\', '"'] from rfl, List.cons_append, List.cons_append,
          List.nil_append]
        rw [psb_esc_quote, ih rest f hlen]
        rfl
      · by_cases h2 : c = '\\'
        · subst h2
          rw [show escChar '\\' = ['\\', '\\'] from rfl, List.cons_append, List.cons_append,
            List.nil_append]
          rw [psb_esc_bslash, ih rest f hlen]
          rfl
        · by_cases h3 : c = '\n'
          · subst h3
            rw [show escChar '\n' = ['\\', 'n'] from rfl, List.cons_append, List.cons_append,
              List.nil_append]
            rw [psb_esc_n, ih rest f hlen]
            rfl
          · by_cases h4 : c = '\r'
            · subst h4
              rw [show escChar '\r' = ['\\', 'r'] from rfl, List.cons_append,
                List.cons_append, List.nil_append]
              rw [psb_esc_r, ih rest f hlen]
              rfl
            · by_cases h5 : c = '\t'
              · subst h5
                rw [show escChar '\t' = ['\\', 't'] from rfl, List.cons_append,
                  List.cons_append, List.nil_append]
                rw [psb_esc_t, ih rest f hlen]
                rfl
              · by_cases h6 : c.toNat = 8
                · have hc : escChar c = ['\\', 'b'] := by
                    rw [escChar, if_neg h1, if_neg h2, if_neg h3, if_neg h4, if_neg h5,
                      if_pos h6]
                  have hcc : Char.ofNat 8 = c := by
                    rw [← h6, Char.ofNat_toNat]
                  rw [hc, List.cons_append, List.cons_append, List.nil_append]
                  rw [psb_esc_b, ih rest f hlen, hcc]
                  rfl
                · by_cases h7 : c.toNat = 12
                  · have hc : escChar c = ['\\', 'f'] := by
                      rw [escChar, if_neg h1, if_neg h2, if_neg h3, if_neg h4, if_neg h5,
                        if_neg h6, if_pos h7]
                    have hcc : Char.ofNat 12 = c := by
                      rw [← h7, Char.ofNat_toNat]
                    rw [hc, List.cons_append, List.cons_append, List.nil_append]
                    rw [psb_esc_f, ih rest f hlen, hcc]
                    rfl
                  · by_cases h8 : 32 ≤ c.toNat ∧ c.toNat ≤ 126
                    · have hc : escChar c = [c] := by
                        rw [escChar, if_neg h1, if_neg h2, if_neg h3, if_neg h4, if_neg h5,
                          if_neg h6, if_neg h7, if_pos h8]
                      rw [hc, List.cons_append, List.nil_append]
                      rw [psb_plain f c _ h1 h2 (by omega), ih rest f hlen]
                      rfl
                    · by_cases h9 : c.toNat < 65536
                      · have hc : escChar c = '\\' :: 'u' :: hex4 c.toNat := by
                          rw [escChar, if_neg h1, if_neg h2, if_neg h3, if_neg h4, if_neg h5,
                            if_neg h6, if_neg h7, if_neg h8, if_pos h9]
                        have hns : ¬(55296 ≤ c.toNat ∧ c.toNat ≤ 57343) := by
                          rcases char_valid_nat c with h | ⟨ha, -⟩
                          · omega
                          · omega
                        rw [hc, List.cons_append, List.cons_append]
                        rw [psb_esc_u, parseUEscapeChar_hex4 h9 hns]
                        show (parseStrBody f (escList s ++ '"' :: rest)).map
                          (fun r => (Char.ofNat c.toNat :: r.1, r.2)) = _
                        rw [ih rest f hlen, Char.ofNat_toNat]
                        rfl
                      · have hge : 65536 ≤ c.toNat := by omega
                        have hvalid : c.toNat < 1114112 := by
                          rcases char_valid_nat c with h | ⟨-, hb⟩
                          · omega
                          · exact hb
                        have hc : escChar c = '\\' :: 'u' ::
                            hex4 (55296 + (c.toNat - 65536) / 1024) ++ '\\' :: 'u' ::
                            hex4 (56320 + (c.toNat - 65536) % 1024) := by
                          rw [escChar, if_neg h1, if_neg h2, if_neg h3, if_neg h4, if_neg h5,
                            if_neg h6, if_neg h7, if_neg h8, if_neg h9]
                        rw [hc]
                        rw [show ('\\' :: 'u' :: hex4 (55296 + (c.toNat - 65536) / 1024) ++
                            '\\' :: 'u' :: hex4 (56320 + (c.toNat - 65536) % 1024)) ++
                            (escList s ++ '"' :: rest) =
                          '\\' :: 'u' :: (hex4 (55296 + (c.toNat - 65536) / 1024) ++
                            '\\' :: 'u' :: hex4 (56320 + (c.toNat - 65536) % 1024) ++
                            (escList s ++ '"' :: rest)) from by
                            simp [List.cons_append, List.append_assoc]]
                        rw [psb_esc_u, parseUEscapeChar_pair hge hvalid]
                        show (parseStrBody f (escList s ++ '"' :: rest)).map
                          (fun r => (Char.ofNat c.toNat :: r.1, r.2)) = _
                        rw [ih rest f hlen, Char.ofNat_toNat]
                        rfl

/-!
Lexical lemmas for the round-trip proof: whitespace skipping, digit runs,
and the continuations that can follow a serialized value.
-/

theorem skipWs_ws {c : Char} (h : c = ' ' ∨ c = '\n' ∨ c = '\t' ∨ c = '\r')
    (l : List Char) : skipWs (c :: l) = skipWs l := by
  rw [skipWs, if_pos h]

theorem skipWs_not_ws {c : Char} (h : ¬(c = ' ' ∨ c = '\n' ∨ c = '\t' ∨ c = '\r'))
    (l : List Char) : skipWs (c :: l) = c :: l := by
  rw [skipWs, if_neg h]

theorem skipWs_spaces (n : Nat) (l : List Char) : skipWs (spaces n ++ l) = skipWs l := by
  induction n with
  | zero => rfl
  | succ m ih => rw [spaces, List.cons_append, skipWs_ws (Or.inl rfl), ih]

/-- The character lists that can follow one serialized value inside
`json.dump` output: end of input, a comma, or the indent newline. -/
def GoodRest (l : List Char) : Prop :=
  l = [] ∨ (∃ t, l = ',' :: t) ∨ (∃ t, l = '\n' :: t)

theorem goodRest_take {l : List Char} (h : GoodRest l) : l.takeWhile isDigitCh = [] := by
  rcases h with rfl | ⟨t, rfl⟩ | ⟨t, rfl⟩
  · rfl
  · rw [List.takeWhile_cons, if_neg (by decide)]
  · rw [List.takeWhile_cons, if_neg (by decide)]

theorem goodRest_drop {l : List Char} (h : GoodRest l) : l.dropWhile isDigitCh = l := by
  rcases h with rfl | ⟨t, rfl⟩ | ⟨t, rfl⟩
  · rfl
  · rw [List.dropWhile_cons, if_neg (by decide)]
  · rw [List.dropWhile_cons, if_neg (by decide)]

theorem takeWhile_append_all (p : Char → Bool) :
    ∀ (l1 l2 : List Char), (∀ c ∈ l1, p c = true) →
      (l1 ++ l2).takeWhile p = l1 ++ l2.takeWhile p := by
  intro l1
  induction l1 with
  | nil => intro l2 _; simp
  | cons c t ih =>
    intro l2 hall
    rw [List.cons_append, List.takeWhile_cons, if_pos (hall c (List.mem_cons_self c t)),
      List.cons_append, ih l2 (fun x hx => hall x (List.mem_cons_of_mem c hx))]

theorem dropWhile_append_all (p : Char → Bool) :
    ∀ (l1 l2 : List Char), (∀ c ∈ l1, p c = true) →
      (l1 ++ l2).dropWhile p = l2.dropWhile p := by
  intro l1
  induction l1 with
  | nil => intro l2 _; simp
  | cons c t ih =>
    intro l2 hall
    rw [List.cons_append, List.dropWhile_cons, if_pos (hall c (List.mem_cons_self c t)),
      ih l2 (fun x hx => hall x (List.mem_cons_of_mem c hx))]

theorem isDigitCh_iff (c : Char) : isDigitCh c = true ↔ 48 ≤ c.toNat ∧ c.toNat ≤ 57 := by
  simp [isDigitCh]

theorem digit_char_toNat {k : Nat} (h : k < 10) : (Char.ofNat (48 + k)).toNat = 48 + k :=
  char_toNat_ofNat (Or.inl (by omega))

theorem natCharsAux_digits : ∀ fuel n, ∀ c ∈ natCharsAux fuel n, isDigitCh c = true := by
  intro fuel
  induction fuel with
  | zero =>
    intro n c hc
    rw [natCharsAux] at hc
    exact absurd hc (List.not_mem_nil c)
  | succ f ih =>
    intro n c hc
    match n with
    | 0 =>
      rw [natCharsAux] at hc
      exact absurd hc (List.not_mem_nil c)
    | m + 1 =>
      rw [natCharsAux.eq_def] at hc
      simp only [] at hc
      rcases List.mem_append.mp hc with h | h
      · exact ih _ c h
      · rcases List.mem_singleton.mp h with rfl
        rw [isDigitCh_iff, digit_char_toNat (by omega)]
        omega

theorem natCharsAux_foldl : ∀ fuel n a, n < fuel →
    (natCharsAux fuel n).foldl (fun a c => 10 * a + (c.toNat - 48)) a =
      a * 10 ^ (natCharsAux fuel n).length + n := by
  intro fuel
  induction fuel with
  | zero => intro n a h; omega
  | succ f ih =>
    intro n a h
    match n with
    | 0 => rw [natCharsAux]; simp
    | m + 1 =>
      rw [natCharsAux.eq_def]
      simp only []
      rw [List.foldl_append, ih ((m + 1) / 10) a (by omega), List.foldl_cons,
        List.foldl_nil, digit_char_toNat (by omega), List.length_append]
      have hs : 48 + (m + 1) % 10 - 48 = (m + 1) % 10 := by omega
      rw [hs]
      set L := (natCharsAux f ((m + 1) / 10)).length with hL
      rw [show ([Char.ofNat (48 + (m + 1) % 10)].length) = 1 from rfl]
      rw [pow_succ]
      set X := (10 : Nat) ^ L with hX
      rw [show a * (X * 10) = a * X * 10 from (mul_assoc a X 10).symm]
      generalize a * X = P
      omega

theorem natChars_digits (n : Nat) : ∀ c ∈ natChars n, isDigitCh c = true := by
  rw [natChars]
  by_cases h : n = 0
  · rw [if_pos h]
    intro c hc
    rcases List.mem_singleton.mp hc with rfl
    decide
  · rw [if_neg h]
    exact natCharsAux_digits (n + 1) n

theorem natChars_ne_nil (n : Nat) : natChars n ≠ [] := by
  rw [natChars]
  by_cases h : n = 0
  · rw [if_pos h]; simp
  · rw [if_neg h]
    match n, h with
    | m + 1, _ =>
      rw [natCharsAux.eq_def]
      simp only []
      simp

theorem digitsVal_natChars (n : Nat) : digitsVal (natChars n) = n := by
  rw [natChars]
  by_cases h : n = 0
  · rw [if_pos h, h]; rfl
  · rw [if_neg h, digitsVal, natCharsAux_foldl (n + 1) n 0 (by omega)]
    simp

theorem parseNumber_intChars (n : Int) (rest : List Char) (h : GoodRest rest) :
    parseNumber (intChars n ++ rest) = some (n, rest) := by
  by_cases hn : n < 0
  · rw [intChars, if_pos hn, List.cons_append, parseNumber]
    simp only [reduceIte, Char.reduceEq]
    rw [takeWhile_append_all _ _ _ (natChars_digits _), goodRest_take h, List.append_nil,
      dropWhile_append_all _ _ _ (natChars_digits _), goodRest_drop h]
    rw [if_neg (by simp [List.isEmpty_iff, natChars_ne_nil])]
    rw [digitsVal_natChars]
    rw [show -((n.natAbs : Nat) : Int) = n from by omega]
  · obtain ⟨c0, t, hct⟩ := List.exists_cons_of_ne_nil (natChars_ne_nil n.natAbs)
    have hd : isDigitCh c0 = true := by
      refine natChars_digits n.natAbs c0 ?_
      rw [hct]
      exact List.mem_cons_self c0 t
    have hne : ¬ c0 = '-' := by
      refine ne_of_toNat_ne ?_
      rw [isDigitCh_iff] at hd
      have hm : ('-').toNat = 45 := rfl
      omega
    rw [intChars, if_neg hn, hct, List.cons_append, parseNumber]
    simp only [if_neg hne]
    rw [← List.cons_append, ← hct]
    rw [takeWhile_append_all _ _ _ (natChars_digits _), goodRest_take h, List.append_nil,
      dropWhile_append_all _ _ _ (natChars_digits _), goodRest_drop h]
    rw [if_neg (by simp [List.isEmpty_iff, natChars_ne_nil])]
    rw [digitsVal_natChars]
    rw [show ((n.natAbs : Nat) : Int) = n from by omega]

theorem escChar_length_pos (c : Char) : 1 ≤ (escChar c).length := by
  rw [escChar]
  repeat' split
  all_goals simp [hex4]

theorem length_le_escList : ∀ s : List Char, s.length ≤ (escList s).length := by
  intro s
  induction s with
  | nil => simp [escList]
  | cons c s ih =>
    rw [escList_cons, List.length_append, List.length_cons]
    have := escChar_length_pos c
    omega

theorem ser_head (v : JValue) (lvl : Nat) :
    ∃ c t, ser v lvl = c :: t ∧ ¬(c = ' ' ∨ c = '\n' ∨ c = '\t' ∨ c = '\r') ∧
      c ≠ ']' ∧ c ≠ '\x7d' := by
  cases v with
  | null =>
    refine ⟨'n', _, rfl, ?_, ?_, ?_⟩ <;> decide
  | bool b =>
    cases b with
    | true => refine ⟨'t', _, rfl, ?_, ?_, ?_⟩ <;> decide
    | false => refine ⟨'f', _, rfl, ?_, ?_, ?_⟩ <;> decide
  | num n =>
    by_cases hn : n < 0
    · refine ⟨'-', natChars n.natAbs, ?_, by decide, by decide, by decide⟩
      show intChars n = _
      rw [intChars, if_pos hn]
    · obtain ⟨c0, t, hct⟩ := List.exists_cons_of_ne_nil (natChars_ne_nil n.natAbs)
      have hd : 48 ≤ c0.toNat ∧ c0.toNat ≤ 57 := by
        rw [← isDigitCh_iff]
        refine natChars_digits n.natAbs c0 ?_
        rw [hct]
        exact List.mem_cons_self c0 t
      refine ⟨c0, t, ?_, ?_, ?_, ?_⟩
      · show intChars n = _
        rw [intChars, if_neg hn, hct]
      · intro hor
        rcases hor with rfl | rfl | rfl | rfl <;> exact absurd hd (by decide)
      · intro hc
        subst hc
        exact absurd hd (by decide)
      · intro hc
        subst hc
        exact absurd hd (by decide)
  | str s =>
    refine ⟨'"', _, rfl, ?_, ?_, ?_⟩ <;> decide
  | arr xs =>
    cases xs with
    | nil => refine ⟨'[', _, rfl, ?_, ?_, ?_⟩ <;> decide
    | cons x t => refine ⟨'[', _, rfl, ?_, ?_, ?_⟩ <;> decide
  | obj kvs =>
    cases kvs with
    | nil => refine ⟨'\x7b', _, rfl, ?_, ?_, ?_⟩ <;> decide
    | cons kv t => refine ⟨'\x7b', _, rfl, ?_, ?_, ?_⟩ <;> decide

theorem skipWs_ser (v : JValue) (lvl : Nat) (rest : List Char) :
    skipWs (ser v lvl ++ rest) = ser v lvl ++ rest := by
  obtain ⟨c, t, hct, hws, -, -⟩ := ser_head v lvl
  rw [hct, List.cons_append, skipWs_not_ws hws]

theorem parseV_congr (fuel : Nat) {cs1 cs2 : List Char} (h : skipWs cs1 = skipWs cs2) :
    parseV fuel cs1 = parseV fuel cs2 := by
  cases fuel with
  | zero => rfl
  | succ f =>
    simp only [parseV.eq_def]
    rw [h]

theorem parseItems_congr (fuel : Nat) {cs1 cs2 : List Char} (h : skipWs cs1 = skipWs cs2) :
    parseItems fuel cs1 = parseItems fuel cs2 := by
  cases fuel with
  | zero => rfl
  | succ f =>
    conv_lhs => rw [parseItems.eq_def]
    conv_rhs => rw [parseItems.eq_def]
    simp only []
    rw [parseV_congr f h]

theorem parseMembers_congr (fuel : Nat) {cs1 cs2 : List Char} (h : skipWs cs1 = skipWs cs2) :
    parseMembers fuel cs1 = parseMembers fuel cs2 := by
  cases fuel with
  | zero => rfl
  | succ f =>
    conv_lhs => rw [parseMembers.eq_def]
    conv_rhs => rw [parseMembers.eq_def]
    simp only []
    rw [h]

/-!
Parser fuel: a weight on JSON values that bounds the nesting-driven fuel
consumption of `parseV`/`parseItems`/`parseMembers`.
-/

mutual

def jweight : JValue → Nat
  | .null => 1
  | .bool _ => 1
  | .num _ => 1
  | .str _ => 1
  | .arr xs => listWeight xs + 1
  | .obj kvs => membersWeight kvs + 1

def listWeight : List JValue → Nat
  | [] => 0
  | x :: xs => jweight x + listWeight xs + 1

def membersWeight : List (String × JValue) → Nat
  | [] => 0
  | kv :: kvs => memberWeight kv + membersWeight kvs + 1

def memberWeight : String × JValue → Nat
  | (_, v) => jweight v

end

theorem goodRest_nil : GoodRest [] := Or.inl rfl

theorem goodRest_comma (t : List Char) : GoodRest (',' :: t) := Or.inr (Or.inl ⟨t, rfl⟩)

theorem goodRest_nl (t : List Char) : GoodRest ('\n' :: t) := Or.inr (Or.inr ⟨t, rfl⟩)

theorem spaces_length (n : Nat) : (spaces n).length = n := by
  induction n with
  | zero => rfl
  | succ m ih => rw [spaces, List.length_cons, ih]

theorem serItems_weight (xs : List JValue)
    (hall : ∀ x ∈ xs, ∀ lvl, jweight x ≤ (ser x lvl).length) :
    ∀ lvl, listWeight xs ≤ (serItems xs lvl).length := by
  induction xs with
  | nil => intro lvl; rw [listWeight]; omega
  | cons y ys ih =>
    intro lvl
    rw [listWeight, serItems]
    simp only [List.length_cons, List.length_append, spaces_length]
    have h1 := hall y (List.mem_cons_self y ys) lvl
    have h2 := ih (fun x hx => hall x (List.mem_cons_of_mem y hx)) lvl
    omega

theorem serMember_weight (kv : String × JValue)
    (hv : ∀ lvl, jweight kv.2 ≤ (ser kv.2 lvl).length) :
    ∀ lvl, memberWeight kv ≤ (serMember kv lvl).length := by
  obtain ⟨k, v⟩ := kv
  intro lvl
  rw [memberWeight, serMember]
  simp only [List.length_cons, List.length_append]
  have h3 : jweight v ≤ (ser v lvl).length := hv lvl
  omega

theorem serMembers_weight (kvs : List (String × JValue))
    (hall : ∀ kv ∈ kvs, ∀ lvl, jweight kv.2 ≤ (ser kv.2 lvl).length) :
    ∀ lvl, membersWeight kvs ≤ (serMembers kvs lvl).length := by
  induction kvs with
  | nil => intro lvl; rw [membersWeight]; omega
  | cons kv kvs ih =>
    intro lvl
    rw [membersWeight, serMembers]
    simp only [List.length_cons, List.length_append, spaces_length]
    have h1 := serMember_weight kv (hall kv (List.mem_cons_self kv kvs)) lvl
    have h2 := ih (fun x hx => hall x (List.mem_cons_of_mem kv hx)) lvl
    omega

theorem jweight_le_ser : ∀ v : JValue, ∀ lvl, jweight v ≤ (ser v lvl).length := by
  intro v
  induction v using JValue.myInd with
  | h0 => intro lvl; rw [jweight, show ser .null lvl = ['n', 'u', 'l', 'l'] from rfl]; simp
  | h1 b =>
    intro lvl
    cases b with
    | true => rw [jweight, show ser (.bool true) lvl = ['t', 'r', 'u', 'e'] from rfl]; simp
    | false =>
      rw [jweight, show ser (.bool false) lvl = ['f', 'a', 'l', 's', 'e'] from rfl]; simp
  | h2 n =>
    intro lvl
    rw [jweight, show ser (.num n) lvl = intChars n from rfl, intChars]
    split
    · simp
    · have := List.length_pos.mpr (natChars_ne_nil n.natAbs)
      omega
  | h3 s =>
    intro lvl
    rw [jweight, show ser (.str s) lvl = '"' :: escString s ++ ['"'] from rfl]
    simp
  | h4 xs ih =>
    intro lvl
    cases xs with
    | nil => rw [jweight, listWeight, show ser (.arr []) lvl = ['[', ']'] from rfl]; simp
    | cons x xs =>
      rw [jweight, listWeight, show ser (.arr (x :: xs)) lvl = serArr (x :: xs) lvl from rfl,
        serArr]
      simp only [List.length_cons, List.length_append, spaces_length]
      have h1 := ih x (List.mem_cons_self x xs) (lvl + 1)
      have h2 := serItems_weight xs (fun y hy => ih y (List.mem_cons_of_mem x hy)) (lvl + 1)
      omega
  | h5 kvs ih =>
    intro lvl
    cases kvs with
    | nil =>
      rw [jweight, membersWeight, show ser (.obj []) lvl = ['\x7b', '\x7d'] from rfl]; simp
    | cons kv kvs =>
      rw [jweight, membersWeight,
        show ser (.obj (kv :: kvs)) lvl = serObj (kv :: kvs) lvl from rfl, serObj]
      simp only [List.length_cons, List.length_append, spaces_length]
      have h1 := serMember_weight kv (ih kv (List.mem_cons_self kv kvs)) (lvl + 1)
      have h2 := serMembers_weight kvs (fun y hy => ih y (List.mem_cons_of_mem kv hy)) (lvl + 1)
      omega

theorem jweight_pos : ∀ v : JValue, 1 ≤ jweight v := by
  intro v
  cases v <;> rw [jweight] <;> omega

/-- The heart of the round-trip: with enough fuel, the recursive-descent
reader inverts the serializer — for a whole value, for the tail of an
array after its first element, and for the tail of an object after its
opening quote. -/
theorem parse_ser_ok : ∀ fuel : Nat,
    (∀ (v : JValue) (lvl : Nat) (rest : List Char), jweight v ≤ fuel → GoodRest rest →
      parseV fuel (ser v lvl ++ rest) = some (v, rest)) ∧
    (∀ (x : JValue) (xs : List JValue) (lvl m : Nat) (rest : List Char),
      listWeight (x :: xs) ≤ fuel → GoodRest rest →
      parseItems fuel (ser x lvl ++ (serItems xs lvl ++ '\n' :: (spaces m ++ ']' :: rest))) =
        some (x :: xs, rest)) ∧
    (∀ (k : String) (v : JValue) (kvs : List (String × JValue)) (lvl m : Nat)
      (rest : List Char),
      membersWeight ((k, v) :: kvs) ≤ fuel → GoodRest rest →
      parseMembers fuel (serMember (k, v) lvl ++ (serMembers kvs lvl ++
        '\n' :: (spaces m ++ '\x7d' :: rest))) = some ((k, v) :: kvs, rest)) := by
  intro fuel
  induction fuel with
  | zero =>
    refine ⟨?_, ?_, ?_⟩
    · intro v lvl rest hw hr
      have := jweight_pos v
      omega
    · intro x xs lvl m rest hw hr
      rw [listWeight] at hw
      omega
    · intro k v kvs lvl m rest hw hr
      rw [membersWeight] at hw
      omega
  | succ g ih =>
    obtain ⟨ihV, ihI, ihM⟩ := ih
    refine ⟨?_, ?_, ?_⟩
    · intro v lvl rest hw hr
      cases v with
      | null =>
        rw [show ser .null lvl ++ rest = 'n' :: 'u' :: 'l' :: 'l' :: rest from rfl]
        rw [parseV.eq_def]
        simp only []
        rw [skipWs_not_ws (by decide)]
        simp only [reduceIte, Char.reduceEq]
      | bool b =>
        cases b with
        | true =>
          rw [show ser (.bool true) lvl ++ rest = 't' :: 'r' :: 'u' :: 'e' :: rest from rfl]
          rw [parseV.eq_def]
          simp only []
          rw [skipWs_not_ws (by decide)]
          simp only [reduceIte, Char.reduceEq]
        | false =>
          rw [show ser (.bool false) lvl ++ rest =
            'f' :: 'a' :: 'l' :: 's' :: 'e' :: rest from rfl]
          rw [parseV.eq_def]
          simp only []
          rw [skipWs_not_ws (by decide)]
          simp only [reduceIte, Char.reduceEq]
      | num n =>
        have key : ∃ c0 t, intChars n = c0 :: t ∧ (c0 = '-' ∨ isDigitCh c0 = true) := by
          rw [intChars]
          split
          · exact ⟨'-', _, rfl, Or.inl rfl⟩
          · obtain ⟨c0, t, hct⟩ := List.exists_cons_of_ne_nil (natChars_ne_nil n.natAbs)
            refine ⟨c0, t, hct, Or.inr (natChars_digits n.natAbs c0 ?_)⟩
            rw [hct]
            exact List.mem_cons_self c0 t
        obtain ⟨c0, t, hct, hc0⟩ := key
        have hcn : c0.toNat = 45 ∨ (48 ≤ c0.toNat ∧ c0.toNat ≤ 57) := by
          rcases hc0 with rfl | hd
          · exact Or.inl rfl
          · exact Or.inr ((isDigitCh_iff c0).mp hd)
        rw [show ser (.num n) lvl = intChars n from rfl, hct, List.cons_append]
        rw [parseV.eq_def]
        simp only []
        rw [skipWs_not_ws (by
          intro hor
          rcases hor with rfl | rfl | rfl | rfl <;> revert hcn <;> decide)]
        simp only []
        rw [if_neg (ne_of_toNat_ne (show c0.toNat ≠ ('"').toNat from by
              have : ('"').toNat = 34 := rfl
              omega)),
          if_neg (ne_of_toNat_ne (show c0.toNat ≠ ('[').toNat from by
              have : ('[').toNat = 91 := rfl
              omega)),
          if_neg (ne_of_toNat_ne (show c0.toNat ≠ ('\x7b').toNat from by
              have : ('\x7b').toNat = 123 := rfl
              omega)),
          if_neg (ne_of_toNat_ne (show c0.toNat ≠ ('t').toNat from by
              have : ('t').toNat = 116 := rfl
              omega)),
          if_neg (ne_of_toNat_ne (show c0.toNat ≠ ('f').toNat from by
              have : ('f').toNat = 102 := rfl
              omega)),
          if_neg (ne_of_toNat_ne (show c0.toNat ≠ ('n').toNat from by
              have : ('n').toNat = 110 := rfl
              omega)),
          if_pos hc0]
        rw [← List.cons_append, ← hct, parseNumber_intChars n rest hr]
        rfl
      | str s =>
        rw [show ser (.str s) lvl ++ rest = '"' :: (escList s.data ++ '"' :: rest) from by
          simp [ser, escString, List.append_assoc]]
        rw [parseV.eq_def]
        simp only []
        rw [skipWs_not_ws (by decide)]
        simp only [reduceIte, Char.reduceEq]
        have hb : s.data.length < (escList s.data ++ '"' :: rest).length + 1 := by
          have := length_le_escList s.data
          simp only [List.length_append]
          omega
        rw [parseStrBody_escList s.data rest _ hb]
        rfl
      | arr xs =>
        cases xs with
        | nil =>
          rw [show ser (.arr []) lvl ++ rest = '[' :: ']' :: rest from rfl]
          rw [parseV.eq_def]
          simp only []
          rw [skipWs_not_ws (by decide)]
          simp only [reduceIte, Char.reduceEq]
          rw [skipWs_not_ws (by decide)]
          simp only [List.head?_cons, List.tail_cons, Option.some.injEq, Char.reduceEq,
            reduceIte]
        | cons x xs =>
          have hw' : listWeight (x :: xs) ≤ g := by
            rw [jweight] at hw
            omega
          have hI := ihI x xs (lvl + 1) (2 * lvl) rest hw' hr
          rw [show ser (.arr (x :: xs)) lvl ++ rest =
              '[' :: ('\n' :: (spaces (2 * (lvl + 1)) ++ (ser x (lvl + 1) ++
                (serItems xs (lvl + 1) ++ '\n' :: (spaces (2 * lvl) ++ ']' :: rest)))))
              from by
            simp [ser, serArr, List.append_assoc]]
          rw [parseV.eq_def]
          simp only []
          rw [skipWs_not_ws (by decide)]
          simp only [reduceIte, Char.reduceEq]
          rw [skipWs_ws (Or.inr (Or.inl rfl)), skipWs_spaces, skipWs_ser]
          obtain ⟨c, t', hct, hws, hrb, hob⟩ := ser_head x (lvl + 1)
          rw [hct, List.cons_append, List.head?_cons,
            if_neg (fun h => hrb (Option.some.inj h)), ← List.cons_append, ← hct, hI]
          rfl
      | obj kvs =>
        cases kvs with
        | nil =>
          rw [show ser (.obj []) lvl ++ rest = '\x7b' :: '\x7d' :: rest from rfl]
          rw [parseV.eq_def]
          simp only []
          rw [skipWs_not_ws (by decide)]
          simp only [reduceIte, Char.reduceEq]
          rw [skipWs_not_ws (by decide)]
          simp only [List.head?_cons, List.tail_cons, Option.some.injEq, Char.reduceEq,
            reduceIte]
        | cons kv kvs =>
          obtain ⟨k, v⟩ := kv
          have hw' : membersWeight ((k, v) :: kvs) ≤ g := by
            rw [jweight] at hw
            omega
          have hM := ihM k v kvs (lvl + 1) (2 * lvl) rest hw' hr
          rw [show ser (.obj ((k, v) :: kvs)) lvl ++ rest =
              '\x7b' :: ('\n' :: (spaces (2 * (lvl + 1)) ++ (serMember (k, v) (lvl + 1) ++
                (serMembers kvs (lvl + 1) ++ '\n' :: (spaces (2 * lvl) ++
                  '\x7d' :: rest))))) from by
            simp [ser, serObj, List.append_assoc]]
          rw [parseV.eq_def]
          simp only []
          rw [skipWs_not_ws (by decide)]
          simp only [reduceIte, Char.reduceEq]
          rw [skipWs_ws (Or.inr (Or.inl rfl)), skipWs_spaces]
          rw [show serMember (k, v) (lvl + 1) = '"' :: (escString k ++ '"' :: ':' :: ' ' ::
            ser v (lvl + 1)) from rfl]
          rw [show ('"' :: (escString k ++ '"' :: ':' :: ' ' :: ser v (lvl + 1))) ++
              (serMembers kvs (lvl + 1) ++ '\n' :: (spaces (2 * lvl) ++ '\x7d' :: rest)) =
            '"' :: (escString k ++ '"' :: ':' :: ' ' :: ser v (lvl + 1) ++
              (serMembers kvs (lvl + 1) ++ '\n' :: (spaces (2 * lvl) ++ '\x7d' :: rest)))
            from by
            simp [List.append_assoc]]
          rw [skipWs_not_ws (by decide)]
          simp only [List.head?_cons, Option.some.injEq, Char.reduceEq, reduceIte]
          rw [show serMember (k, v) (lvl + 1) = '"' :: (escString k ++ '"' :: ':' :: ' ' ::
            ser v (lvl + 1)) from rfl] at hM
          simp only [List.append_assoc, List.cons_append] at hM ⊢
          rw [hM]
          rfl
    · intro x xs lvl m rest hw hr
      have hwx : jweight x ≤ g := by
        rw [listWeight] at hw
        omega
      have hrx : GoodRest (serItems xs lvl ++ '\n' :: (spaces m ++ ']' :: rest)) := by
        cases xs with
        | nil =>
          rw [show serItems ([] : List JValue) lvl = [] from rfl, List.nil_append]
          exact goodRest_nl _
        | cons y ys =>
          rw [show serItems (y :: ys) lvl = ',' :: '\n' :: spaces (2 * lvl) ++ ser y lvl ++
            serItems ys lvl from rfl, List.cons_append]
          exact goodRest_comma _
      have hV := ihV x lvl (serItems xs lvl ++ '\n' :: (spaces m ++ ']' :: rest)) hwx hrx
      have hI : ∀ y ys, xs = y :: ys →
          parseItems g (ser y lvl ++ (serItems ys lvl ++ '\n' :: (spaces m ++ ']' :: rest))) =
            some (y :: ys, rest) := by
        intro y ys hxs
        subst hxs
        refine ihI y ys lvl m rest ?_ hr
        rw [listWeight] at hw
        have := jweight_pos x
        omega
      rw [parseItems.eq_def]
      simp only []
      rw [hV]
      simp only [Option.bind_eq_bind', Option.some_bind]
      cases xs with
      | nil =>
        rw [show serItems ([] : List JValue) lvl = [] from rfl, List.nil_append]
        rw [skipWs_ws (Or.inr (Or.inl rfl)), skipWs_spaces, skipWs_not_ws (by decide)]
        simp only [List.head?_cons, List.tail_cons, Option.some.injEq, Char.reduceEq,
          reduceIte]
      | cons y ys =>
        rw [show serItems (y :: ys) lvl = ',' :: '\n' :: spaces (2 * lvl) ++ ser y lvl ++
          serItems ys lvl from rfl]
        rw [show (',' :: '\n' :: spaces (2 * lvl) ++ ser y lvl ++ serItems ys lvl) ++
            '\n' :: (spaces m ++ ']' :: rest) =
          ',' :: ('\n' :: (spaces (2 * lvl) ++ (ser y lvl ++ (serItems ys lvl ++
            '\n' :: (spaces m ++ ']' :: rest))))) from by
          simp [List.append_assoc]]
        rw [skipWs_not_ws (by decide)]
        simp only [List.head?_cons, List.tail_cons, Option.some.injEq, Char.reduceEq,
          reduceIte]
        rw [parseItems_congr g (show skipWs ('\n' :: (spaces (2 * lvl) ++ (ser y lvl ++
            (serItems ys lvl ++ '\n' :: (spaces m ++ ']' :: rest))))) =
          skipWs (ser y lvl ++ (serItems ys lvl ++ '\n' :: (spaces m ++ ']' :: rest)))
          from by
          rw [skipWs_ws (Or.inr (Or.inl rfl)), skipWs_spaces])]
        rw [hI y ys rfl]
        rfl
    · intro k v kvs lvl m rest hw hr
      simp only [membersWeight, memberWeight] at hw
      have hwv : jweight v ≤ g := by omega
      have hrv : GoodRest (serMembers kvs lvl ++ '\n' :: (spaces m ++ '\x7d' :: rest)) := by
        cases kvs with
        | nil =>
          rw [show serMembers ([] : List (String × JValue)) lvl = [] from rfl,
            List.nil_append]
          exact goodRest_nl _
        | cons kv2 kvs2 =>
          rw [show serMembers (kv2 :: kvs2) lvl = ',' :: '\n' :: spaces (2 * lvl) ++
            serMember kv2 lvl ++ serMembers kvs2 lvl from rfl, List.cons_append]
          exact goodRest_comma _
      have hV := ihV v lvl (serMembers kvs lvl ++ '\n' :: (spaces m ++ '\x7d' :: rest))
        hwv hrv
      have hM : ∀ kv2 kvs2, kvs = kv2 :: kvs2 →
          parseMembers g (serMember kv2 lvl ++ (serMembers kvs2 lvl ++
            '\n' :: (spaces m ++ '\x7d' :: rest))) = some (kv2 :: kvs2, rest) := by
        intro kv2 kvs2 hk
        subst hk
        obtain ⟨k2, v2⟩ := kv2
        refine ihM k2 v2 kvs2 lvl m rest ?_ hr
        simp only [membersWeight, memberWeight] at hw ⊢
        have := jweight_pos v
        omega
      rw [parseMembers.eq_def]
      simp only []
      rw [show serMember (k, v) lvl ++ (serMembers kvs lvl ++ '\n' :: (spaces m ++
          '\x7d' :: rest)) =
        '"' :: (escList k.data ++ '"' :: (':' :: (' ' :: (ser v lvl ++ (serMembers kvs lvl ++
          '\n' :: (spaces m ++ '\x7d' :: rest)))))) from by
        simp [serMember, escString, List.append_assoc]]
      rw [skipWs_not_ws (by decide)]
      simp only [reduceIte, Char.reduceEq]
      have hb : k.data.length < (escList k.data ++ '"' :: (':' :: (' ' :: (ser v lvl ++
          (serMembers kvs lvl ++ '\n' :: (spaces m ++ '\x7d' :: rest)))))).length + 1 := by
        have := length_le_escList k.data
        simp only [List.length_append]
        omega
      rw [parseStrBody_escList k.data _ _ hb]
      simp only [Option.bind_eq_bind', Option.some_bind]
      rw [skipWs_not_ws (by decide)]
      simp only [reduceIte, Char.reduceEq]
      rw [parseV_congr g (skipWs_ws (Or.inl rfl) _), hV]
      simp only [Option.bind_eq_bind', Option.some_bind]
      cases kvs with
      | nil =>
        rw [show serMembers ([] : List (String × JValue)) lvl = [] from rfl,
          List.nil_append]
        rw [skipWs_ws (Or.inr (Or.inl rfl)), skipWs_spaces, skipWs_not_ws (by decide)]
        simp only [List.head?_cons, List.tail_cons, Option.some.injEq, Char.reduceEq,
          reduceIte]
      | cons kv2 kvs2 =>
        rw [show serMembers (kv2 :: kvs2) lvl = ',' :: '\n' :: spaces (2 * lvl) ++
          serMember kv2 lvl ++ serMembers kvs2 lvl from rfl]
        rw [show (',' :: '\n' :: spaces (2 * lvl) ++ serMember kv2 lvl ++
            serMembers kvs2 lvl) ++ '\n' :: (spaces m ++ '\x7d' :: rest) =
          ',' :: ('\n' :: (spaces (2 * lvl) ++ (serMember kv2 lvl ++ (serMembers kvs2 lvl ++
            '\n' :: (spaces m ++ '\x7d' :: rest))))) from by
          simp [List.append_assoc]]
        rw [skipWs_not_ws (by decide)]
        simp only [List.head?_cons, List.tail_cons, Option.some.injEq, Char.reduceEq,
          reduceIte]
        rw [parseMembers_congr g (show skipWs ('\n' :: (spaces (2 * lvl) ++
            (serMember kv2 lvl ++ (serMembers kvs2 lvl ++
              '\n' :: (spaces m ++ '\x7d' :: rest))))) =
          skipWs (serMember kv2 lvl ++ (serMembers kvs2 lvl ++
            '\n' :: (spaces m ++ '\x7d' :: rest))) from by
          rw [skipWs_ws (Or.inr (Or.inl rfl)), skipWs_spaces])]
        rw [hM kv2 kvs2 rfl]
        rfl

theorem jsonLoads_jsonDumps (v : JValue) : jsonLoads (jsonDumps v) = some v := by
  have h := (parse_ser_ok ((ser v 0).length + 1)).1 v 0 [] (by
    have := jweight_le_ser v 0
    omega) goodRest_nil
  rw [List.append_nil] at h
  rw [jsonLoads, jsonDumps, h]
  rfl

/-- **C8**: round-trip identity of the persisted Post collection —
`_save_metadata` writes the collection with `json.dump(..., indent=2)`,
`load_from_metadata` reads it back with `json.load`; loading recovers
exactly the original JSON array of Post objects, and re-serializing the
loaded value is byte-identical to the file that was written. -/
theorem C8_metadata_roundtrip (postsData : List JValue) :
    jsonLoads (saveMetadata postsData) = some (.arr postsData) ∧
    (jsonLoads (saveMetadata postsData)).map jsonDumps = some (saveMetadata postsData) := by
  have h : jsonLoads (saveMetadata postsData) = some (.arr postsData) :=
    jsonLoads_jsonDumps (.arr postsData)
  refine ⟨h, ?_⟩
  rw [h]
  rfl
